import Mathlib

/-!
Shallow embedding of `deepdiff/search.py` (class `DeepSearch`).

The Python object graph is modelled as a finite heap: a list of pairs
`(id, node)` where `id : Nat` plays the role of CPython's `id()` and the
children of container nodes are stored as ids.  The recursive method
`DeepSearch.__search` and its visitors (`__search_dict`,
`__search_iterable`, `__search_str`, `__search_numbers`, `__search_tuple`,
`__search_obj`) are translated into a fuel-indexed function `searchF`
that returns the ordered list of report events (`matched_paths`,
`matched_values`, `unprocessed` additions, and set-advisory warnings);
`none` means the fuel ran out.  Result buckets, verbosity shaping
(`__set_or_dict` / `__report`), and the deletion of empty buckets at the
end of `__init__` are reproduced by `finalize`.
-/

namespace DDS

/-- Keys of Python dictionaries, restricted to the hashable scalar kinds
    the search paths can render: strings and integers. -/
inductive PyKey
  | str (s : String)
  | int (n : Int)
deriving DecidableEq

/-- A node of the Python object graph.  Children are heap ids.
    `str` covers the `strings` tuple, `num` the `numbers` tuple of
    `search.py`; `tuple` carries `some fields` when the object exposes
    `_asdict` (a namedtuple); `obj` carries its `__dict__` (first slot)
    or `__slots__` (second slot) when present. -/
inductive PyNode
  | str (s : String)
  | num (n : Int)
  | dict (entries : List (PyKey × Nat))
  | list (elems : List Nat)
  | tuple (elems : List Nat) (asdict : Option (List (String × Nat)))
  | set (elems : List Nat)
  | obj (dct : Option (List (String × Nat))) (slots : Option (List (String × Nat)))
deriving DecidableEq

/-- The runtime type of a node, used for `isinstance(_, exclude_types_tuple)`. -/
inductive PyType
  | str
  | num
  | dict
  | list
  | tuple
  | set
  | obj
deriving DecidableEq

abbrev Heap := List (Nat × PyNode)

def typeOf : PyNode → PyType
  | .str _ => .str
  | .num _ => .num
  | .dict _ => .dict
  | .list _ => .list
  | .tuple _ _ => .tuple
  | .set _ => .set
  | .obj _ _ => .obj

def typeOfRef (h : Heap) (r : Nat) : Option PyType :=
  (List.lookup r h).map typeOf

/-- One structural component of a path: `[i]` (iterable index),
    `[key]` (dictionary key, quoted when a string), or `.name`
    (attribute-style access, `print_as_attribute=True`). -/
inductive Step
  | idx (i : Nat)
  | key (k : PyKey)
  | attr (k : PyKey)
deriving DecidableEq

/-- ASCII apostrophe, used by `__search_dict` to quote string keys. -/
def squote : String := String.mk [Char.ofNat 39]

def keyText : PyKey → String
  | .str s => s
  | .int n => Int.repr n

/-- The text `__search_dict`/`__search_iterable` append for one step:
    `"%s[%s]"` with a quoted key in bracket mode, `"%s.%s"` in attribute
    mode. -/
def stepFrag : Step → String
  | .idx i => "[" ++ Nat.repr i ++ "]"
  | .key (.str s) => "[" ++ squote ++ s ++ squote ++ "]"
  | .key (.int n) => "[" ++ Int.repr n ++ "]"
  | .attr k => "." ++ keyText k

/-- The path string the code builds incrementally starting from `"root"`. -/
def render (p : List Step) : String :=
  p.foldl (fun acc s => acc ++ stepFrag s) "root"

/-- Python's `needle in hay` on strings. -/
def strContains (hay needle : String) : Bool :=
  decide (needle.data <:+: hay.data)

/-- `", ".join(keys)` / `", ".join` style joining (`str.join` in Python). -/
def joinComma : List String → String
  | [] => ""
  | [s] => s
  | s :: rest => s ++ ", " ++ joinComma rest

/-- Python `repr`, as far as the search can observe it through
    `str(item)` (only scalars are rendered exactly; containers get a
    Python-like rendering; plain objects a placeholder). -/
def pyReprAux (h : Heap) : Nat → Nat → String
  | 0, _ => ""
  | fuel + 1, r =>
    match List.lookup r h with
    | none => ""
    | some (.str s) => squote ++ s ++ squote
    | some (.num n) => Int.repr n
    | some (.list xs) => "[" ++ joinComma (xs.map (pyReprAux h fuel)) ++ "]"
    | some (.tuple xs _) => "(" ++ joinComma (xs.map (pyReprAux h fuel)) ++ ")"
    | some (.set xs) => "\x7b" ++ joinComma (xs.map (pyReprAux h fuel)) ++ "\x7d"
    | some (.dict xs) =>
        "\x7b" ++
          joinComma (xs.map (fun kv =>
            (match kv.1 with
             | .str s => squote ++ s ++ squote
             | .int n => Int.repr n) ++ ": " ++ pyReprAux h fuel kv.2)) ++
        "\x7d"
    | some (.obj _ _) => "<object>"

/-- Python `str(item)` as used in `if str(item) in new_parent`. -/
def pyStr (h : Heap) (r : Nat) : String :=
  match List.lookup r h with
  | some (.str s) => s
  | _ => pyReprAux h (h.length + 1) r

/-- Python `==`, fuel-bounded.  Identical ids compare equal (CPython's
    identity shortcut inside container comparison); scalars compare by
    value, containers structurally, plain objects by identity only. -/
def pyEqAux (h : Heap) : Nat → Nat → Nat → Bool
  | 0, _, _ => false
  | fuel + 1, a, b =>
    if a = b then true
    else
      match List.lookup a h, List.lookup b h with
      | some (.str s), some (.str t) => s = t
      | some (.num m), some (.num n) => m = n
      | some (.list xs), some (.list ys) =>
          xs.length = ys.length &&
            (List.zip xs ys).all (fun p => pyEqAux h fuel p.1 p.2)
      | some (.tuple xs _), some (.tuple ys _) =>
          xs.length = ys.length &&
            (List.zip xs ys).all (fun p => pyEqAux h fuel p.1 p.2)
      | some (.set xs), some (.set ys) =>
          xs.all (fun x => ys.any (fun y => pyEqAux h fuel x y)) &&
            ys.all (fun y => xs.any (fun x => pyEqAux h fuel x y))
      | some (.dict xs), some (.dict ys) =>
          xs.length = ys.length &&
            xs.all (fun kv =>
              match List.lookup kv.1 ys with
              | some w => pyEqAux h fuel kv.2 w
              | none => false)
      | _, _ => false

def pyEqTop (h : Heap) (a b : Nat) : Bool :=
  pyEqAux h (h.length + 1) a b

/-- The engine's configuration (`exclude_paths`, `exclude_types`,
    `verbose_level`). -/
structure Cfg where
  exclude_paths : List String
  exclude_types : List PyType
  verbose_level : Nat
deriving DecidableEq

/-- `isinstance(x, self.exclude_types_tuple)` for the object with id `r`. -/
def isExcludedType (cfg : Cfg) (h : Heap) (r : Nat) : Bool :=
  match List.lookup r h with
  | some node => decide (typeOf node ∈ cfg.exclude_types)
  | none => false

/-- `DeepSearch.__skip_this`: skip when the parent path string is in
    `exclude_paths`, otherwise when the first argument's type is in
    `exclude_types`. -/
def skipThis (cfg : Cfg) (h : Heap) (r : Nat) (parent : String) : Bool :=
  if parent ∈ cfg.exclude_paths then true
  else isExcludedType cfg h r

/-- One report event, in traversal order.  `mpath`/`mval` become
    `matched_paths`/`matched_values` entries (path plus the reported
    value's id), `unproc` an `unprocessed` entry, and `warnSet` records a
    dispatch on a set/frozenset node (the advisory's emission is gated
    separately by the instance counter, see `warnFold`). -/
inductive Report
  | mpath (p : List Step) (v : Nat)
  | mval (p : List Step) (v : Nat)
  | unproc (p : List Step)
  | warnSet (p : List Step)
deriving DecidableEq

def Report.pathOf : Report → List Step
  | .mpath p _ => p
  | .mval p _ => p
  | .unproc p => p
  | .warnSet p => p

/-- `frozenset` of ancestor ids, with `set.add` (`__add_to_frozen_set`). -/
def addId (pids : List Nat) (c : Nat) : List Nat :=
  if c ∈ pids then pids else c :: pids

/-- The loop of `DeepSearch.__search_dict` (also used by `__search_obj`
    with `print_as_attribute=True`): per key, skip children already on the
    ancestry (`parents_ids`), report `matched_paths` when `str(item)`
    occurs in the new path, then recurse via `go` (the dispatcher at the
    next fuel level). -/
def searchDictGo (h : Heap) (item : Nat)
    (go : Nat → List Step → List Nat → Option (List Report))
    (attrMode : Bool) (path : List Step) :
    List (PyKey × Nat) → List Nat → Option (List Report)
  | [], _ => some []
  | (k, c) :: rest, pids =>
    if pids ≠ [] ∧ c ∈ pids then
      searchDictGo h item go attrMode path rest pids
    else
      let newPath := path ++ [if attrMode then Step.attr k else Step.key k]
      let here :=
        if strContains (render newPath) (pyStr h item) then
          [Report.mpath newPath c]
        else []
      match go c newPath (addId pids c) with
      | none => none
      | some rs =>
        match searchDictGo h item go attrMode path rest pids with
        | none => none
        | some rest' => some (here ++ rs ++ rest')

/-- The loop of `DeepSearch.__search_iterable`: per element, apply
    `__skip_this` to the element and its new path, report a value match
    when `x == item`, otherwise apply the ancestry check and recurse. -/
def searchIterGo (cfg : Cfg) (h : Heap) (item : Nat)
    (go : Nat → List Step → List Nat → Option (List Report))
    (path : List Step) :
    List Nat → Nat → List Nat → Option (List Report)
  | [], _, _ => some []
  | x :: rest, i, pids =>
    let newPath := path ++ [Step.idx i]
    if skipThis cfg h x (render newPath) then
      searchIterGo cfg h item go path rest (i + 1) pids
    else if pyEqTop h x item then
      match searchIterGo cfg h item go path rest (i + 1) pids with
      | none => none
      | some rest' => some (Report.mval newPath x :: rest')
    else if pids ≠ [] ∧ x ∈ pids then
      searchIterGo cfg h item go path rest (i + 1) pids
    else
      match go x newPath (addId pids x) with
      | none => none
      | some rs =>
        match searchIterGo cfg h item go path rest (i + 1) pids with
        | none => none
        | some rest' => some (rs ++ rest')

def strFields (fields : List (String × Nat)) : List (PyKey × Nat) :=
  fields.map (fun kv => (PyKey.str kv.1, kv.2))

/-- `DeepSearch.__search`, fuel-indexed (`none` = fuel exhausted).
    Branches in the order of the Python dispatcher.  A string node paired
    with an item that is neither string- nor number-like falls into the
    `Iterable` branch of the code and is iterated character by character;
    that iteration can never produce a report (a one-character string
    never equals a non-string item, and the iterable visitor emits no
    path matches), so it is rendered here as the empty report list. -/
def searchF (cfg : Cfg) (h : Heap) (item : Nat) :
    Nat → Nat → List Step → List Nat → Option (List Report)
  | 0, _, _, _ => none
  | fuel + 1, r, path, pids =>
    if skipThis cfg h item (render path) then some []
    else
      match List.lookup r h with
      | none => some []
      | some (.str s) =>
        match List.lookup item h with
        | some (.str t) =>
            some (if strContains s t then [Report.mval path r] else [])
        | some (.num _) => some []
        | _ => some []
      | some (.num _) =>
          some (if pyEqTop h item r then [Report.mval path r] else [])
      | some (.dict entries) =>
          searchDictGo h item (searchF cfg h item fuel) false path entries pids
      | some (.tuple elems asdict) =>
        match asdict with
        | some fields =>
            searchDictGo h item (searchF cfg h item fuel) true path
              (strFields fields) pids
        | none =>
            searchIterGo cfg h item (searchF cfg h item fuel) path elems 0 pids
      | some (.set elems) =>
        match searchIterGo cfg h item (searchF cfg h item fuel) path elems 0 pids with
        | none => none
        | some rs => some (Report.warnSet path :: rs)
      | some (.list elems) =>
          searchIterGo cfg h item (searchF cfg h item fuel) path elems 0 pids
      | some (.obj dct slots) =>
        match dct with
        | some fields =>
            searchDictGo h item (searchF cfg h item fuel) true path
              (strFields fields) pids
        | none =>
          match slots with
          | some fields =>
              searchDictGo h item (searchF cfg h item fuel) true path
                (strFields fields) pids
          | none => some [Report.unproc path]

/-- A result bucket: a set of path strings at `verbose_level < 2`
    (`__set_or_dict` returns a `set`), a path-to-value mapping at
    `verbose_level >= 2` (it returns a `dict`). -/
inductive Bucket
  | paths (ps : List String)
  | pathVals (ps : List (String × Nat))
deriving DecidableEq

/-- `DeepSearch.__set_or_dict`. -/
def bucketInit (verbose : Nat) : Bucket :=
  if verbose ≥ 2 then .pathVals [] else .paths []

/-- Assignment `d[key] = value` on an association list. -/
def assocSet : List (String × Nat) → String → Nat → List (String × Nat)
  | [], k, v => [(k, v)]
  | (k', v') :: rest, k, v =>
    if k' = k then (k, v) :: rest else (k', v') :: assocSet rest k v

/-- `DeepSearch.__report`: `self[report_key][key] = value` at
    `verbose_level >= 2`, `self[report_key].add(key)` otherwise. -/
def bucketAdd (b : Bucket) (key : String) (v : Nat) : Bucket :=
  match b with
  | .paths ps => .paths (if key ∈ ps then ps else ps ++ [key])
  | .pathVals ps => .pathVals (assocSet ps key v)

def bucketEmpty : Bucket → Bool
  | .paths ps => ps.isEmpty
  | .pathVals ps => ps.isEmpty

def mpStep (b : Bucket) (rep : Report) : Bucket :=
  match rep with
  | .mpath p v => bucketAdd b (render p) v
  | _ => b

/-- The `matched_paths` bucket accumulated from the report events. -/
def mpBucket (verbose : Nat) (reports : List Report) : Bucket :=
  reports.foldl mpStep (bucketInit verbose)

def mvStep (b : Bucket) (rep : Report) : Bucket :=
  match rep with
  | .mval p v => bucketAdd b (render p) v
  | _ => b

/-- The `matched_values` bucket accumulated from the report events. -/
def mvBucket (verbose : Nat) (reports : List Report) : Bucket :=
  reports.foldl mvStep (bucketInit verbose)

def unprocStep (l : List String) (rep : Report) : List String :=
  match rep with
  | .unproc p => l ++ [render p]
  | _ => l

/-- The `unprocessed` list accumulated from the report events
    (`self['unprocessed'].append("%s" % parent)`). -/
def unprocList (reports : List Report) : List String :=
  reports.foldl unprocStep []

/-- The mapping `DeepSearch` exposes after `__init__`: each of the three
    keys is present exactly when it survived the `empty_keys` deletion. -/
structure DeepSearchOut where
  matched_paths : Option Bucket
  matched_values : Option Bucket
  unprocessed : Option (List String)
deriving DecidableEq

/-- End of `DeepSearch.__init__`: build the three buckets from the
    traversal's reports, then delete the falsy (empty) ones. -/
def finalize (verbose : Nat) (reports : List Report) : DeepSearchOut :=
  let mp := mpBucket verbose reports
  let mv := mvBucket verbose reports
  let un := unprocList reports
  { matched_paths := if bucketEmpty mp then none else some mp
    matched_values := if bucketEmpty mv then none else some mv
    unprocessed := if un.isEmpty then none else some un }

/-- The traversal started by `__init__`:
    `self.__search(obj, item, parents_ids=frozenset({id(obj)}))`. -/
def deepSearchRun (cfg : Cfg) (h : Heap) (root item fuel : Nat) :
    Option DeepSearchOut :=
  (searchF cfg h item fuel root [] [root]).map (finalize cfg.verbose_level)

/-- The `ValueError` message for unexpected keyword arguments. -/
def kwargsMessage (ks : List String) : String :=
  "The following parameter(s) are not valid: " ++ joinComma ks ++
    "\nThe valid parameters are obj, item, exclude_paths, exclude_types and verbose_level."

/-- `DeepSearch.__init__` including the `**kwargs` validation: any extra
    keyword (anything not bound by the named parameters) raises
    `ValueError` before any search work happens. -/
def deepSearchInit (kwargs : List String) (cfg : Cfg) (h : Heap)
    (root item fuel : Nat) : Except String (Option DeepSearchOut) :=
  match kwargs with
  | [] => .ok (deepSearchRun cfg h root item fuel)
  | _ => .error (kwargsMessage kwargs)

/-- The number of advisory warnings actually logged during one search:
    the class attribute `warning_num = 0` is read through `self` and
    `self.warning_num += 1` writes an instance attribute, so each
    `DeepSearch` instance starts its counter at 0; the warning is logged
    on a set/frozenset dispatch only while the counter is below 10. -/
def warnStep (w : Nat) (rep : Report) : Nat :=
  match rep with
  | .warnSet _ => if w < 10 then w + 1 else w
  | _ => w

def warnFold (reports : List Report) : Nat :=
  reports.foldl warnStep 0

/-- Advisory emissions over a whole process: because the class attribute
    is never mutated (see `warnFold`), instances do not share the
    counter, and the process total is the sum of the per-instance
    counts. -/
def processWarnEmissions (runs : List (List Report)) : Nat :=
  (runs.map warnFold).sum

theorem render_snoc (p : List Step) (s : Step) :
    render (p ++ [s]) = render p ++ stepFrag s := by
  simp [render, List.foldl_append]

/-- A report produced while dispatching at `path`: its path extends
    `path`, strictly so for `matched_paths` reports (those are emitted by
    the mapping visitor one step below its own position). -/
def RepIn (path : List Step) (rep : Report) : Prop :=
  path <+: rep.pathOf ∧ ∀ p v, rep = Report.mpath p v → path.length < p.length

theorem RepIn.mono {path newPath : List Step} {rep : Report}
    (hpre : path <+: newPath) (h : RepIn newPath rep) : RepIn path rep :=
  ⟨hpre.trans h.1, fun p v hv => lt_of_le_of_lt hpre.length_le (h.2 p v hv)⟩

theorem repIn_mval_self {path : List Step} {v : Nat} :
    RepIn path (Report.mval path v) :=
  ⟨List.prefix_refl _, fun _ _ hv => by cases hv⟩

theorem repIn_unproc_self {path : List Step} :
    RepIn path (Report.unproc path) :=
  ⟨List.prefix_refl _, fun _ _ hv => by cases hv⟩

theorem repIn_warn_self {path : List Step} :
    RepIn path (Report.warnSet path) :=
  ⟨List.prefix_refl _, fun _ _ hv => by cases hv⟩

theorem repIn_snoc {path : List Step} {s : Step} {rep : Report}
    (hpath : rep.pathOf = path ++ [s]) : RepIn path rep := by
  refine ⟨?_, ?_⟩
  · rw [hpath]; exact List.prefix_append _ _
  · intro p v hv
    have : p = path ++ [s] := by rw [hv] at hpath; exact hpath
    subst this
    simp

theorem searchDictGo_repIn {h : Heap} {item : Nat}
    {go : Nat → List Step → List Nat → Option (List Report)}
    {attrMode : Bool} {path : List Step}
    (hgo : ∀ c np pids rs, go c np pids = some rs → ∀ rep ∈ rs, RepIn np rep) :
    ∀ entries pids rs,
      searchDictGo h item go attrMode path entries pids = some rs →
      ∀ rep ∈ rs, RepIn path rep := by
  intro entries
  induction entries with
  | nil =>
    intro pids rs hrs rep hrep
    simp only [searchDictGo, Option.some.injEq] at hrs
    subst hrs; simp at hrep
  | cons kc rest ih =>
    obtain ⟨k, c⟩ := kc
    intro pids rs hrs rep hrep
    simp only [searchDictGo] at hrs
    split at hrs
    · exact ih pids rs hrs rep hrep
    · generalize hst : (if attrMode = true then Step.attr k else Step.key k) = st at hrs
      cases hg : go c (path ++ [st]) (addId pids c) with
      | none => rw [hg] at hrs; exact absurd hrs (by simp)
      | some rs1 =>
        rw [hg] at hrs
        cases hr : searchDictGo h item go attrMode path rest pids with
        | none => rw [hr] at hrs; exact absurd hrs (by simp)
        | some rest' =>
          rw [hr] at hrs
          simp only [Option.some.injEq] at hrs
          subst hrs
          rcases List.mem_append.1 hrep with hmem | hmem'
          · rcases List.mem_append.1 hmem with hh | h1
            · split at hh
              · rw [List.mem_singleton] at hh
                subst hh
                exact repIn_snoc rfl
              · exact absurd hh (List.not_mem_nil _)
            · exact RepIn.mono (List.prefix_append _ _) (hgo _ _ _ _ hg rep h1)
          · exact ih pids rest' hr rep hmem'

theorem searchIterGo_repIn {cfg : Cfg} {h : Heap} {item : Nat}
    {go : Nat → List Step → List Nat → Option (List Report)}
    {path : List Step}
    (hgo : ∀ c np pids rs, go c np pids = some rs → ∀ rep ∈ rs, RepIn np rep) :
    ∀ elems i pids rs,
      searchIterGo cfg h item go path elems i pids = some rs →
      ∀ rep ∈ rs, RepIn path rep := by
  intro elems
  induction elems with
  | nil =>
    intro i pids rs hrs rep hrep
    simp only [searchIterGo, Option.some.injEq] at hrs
    subst hrs; simp at hrep
  | cons x rest ih =>
    intro i pids rs hrs rep hrep
    simp only [searchIterGo] at hrs
    split at hrs
    · exact ih (i + 1) pids rs hrs rep hrep
    · split at hrs
      · cases hr : searchIterGo cfg h item go path rest (i + 1) pids with
        | none => rw [hr] at hrs; exact absurd hrs (by simp)
        | some rest' =>
          rw [hr] at hrs
          simp only [Option.some.injEq] at hrs
          subst hrs
          rcases List.mem_cons.1 hrep with hh | hmem'
          · subst hh; exact repIn_snoc rfl
          · exact ih (i + 1) pids rest' hr rep hmem'
      · split at hrs
        · exact ih (i + 1) pids rs hrs rep hrep
        · cases hg : go x (path ++ [Step.idx i]) (addId pids x) with
          | none => rw [hg] at hrs; exact absurd hrs (by simp)
          | some rs1 =>
            rw [hg] at hrs
            cases hr : searchIterGo cfg h item go path rest (i + 1) pids with
            | none => rw [hr] at hrs; exact absurd hrs (by simp)
            | some rest' =>
              rw [hr] at hrs
              simp only [Option.some.injEq] at hrs
              subst hrs
              rcases List.mem_append.1 hrep with h1 | hmem'
              · exact RepIn.mono (List.prefix_append _ _) (hgo _ _ _ _ hg rep h1)
              · exact ih (i + 1) pids rest' hr rep hmem'

/-- Locality of the dispatcher: every report it produces lies at or below
    its own position, strictly below for `matched_paths` reports. -/
theorem searchF_repIn (cfg : Cfg) (h : Heap) (item : Nat) :
    ∀ fuel r path pids rs,
      searchF cfg h item fuel r path pids = some rs →
      ∀ rep ∈ rs, RepIn path rep := by
  intro fuel
  induction fuel with
  | zero => intro r path pids rs hrs; exact absurd hrs (by simp [searchF])
  | succ fuel ih =>
    intro r path pids rs hrs rep hrep
    simp only [searchF] at hrs
    split at hrs
    · simp only [Option.some.injEq] at hrs; subst hrs; simp at hrep
    · split at hrs
      case h_1 =>
        simp only [Option.some.injEq] at hrs; subst hrs; simp at hrep
      case h_2 s heq =>
        split at hrs <;> simp only [Option.some.injEq] at hrs <;> subst hrs
        · split at hrep
          · simp only [List.mem_singleton] at hrep; subst hrep
            exact repIn_mval_self
          · simp at hrep
        · simp at hrep
        · simp at hrep
      case h_3 n heq =>
        simp only [Option.some.injEq] at hrs; subst hrs
        split at hrep
        · simp only [List.mem_singleton] at hrep; subst hrep
          exact repIn_mval_self
        · simp at hrep
      case h_4 entries heq =>
        exact searchDictGo_repIn ih entries pids rs hrs rep hrep
      case h_5 elems asdict heq =>
        split at hrs
        · exact searchDictGo_repIn ih _ pids rs hrs rep hrep
        · exact searchIterGo_repIn ih elems 0 pids rs hrs rep hrep
      case h_6 elems heq =>
        cases hit : searchIterGo cfg h item (searchF cfg h item fuel) path elems 0 pids with
        | none => rw [hit] at hrs; exact absurd hrs (by simp)
        | some rs1 =>
          rw [hit] at hrs
          simp only [Option.some.injEq] at hrs; subst hrs
          rcases List.mem_cons.1 hrep with hh | hmem
          · subst hh; exact repIn_warn_self
          · exact searchIterGo_repIn ih elems 0 pids rs1 hit rep hmem
      case h_7 elems heq =>
        exact searchIterGo_repIn ih elems 0 pids rs hrs rep hrep
      case h_8 dct slots heq =>
        split at hrs
        · exact searchDictGo_repIn ih _ pids rs hrs rep hrep
        · split at hrs
          · exact searchDictGo_repIn ih _ pids rs hrs rep hrep
          · simp only [Option.some.injEq] at hrs; subst hrs
            simp only [List.mem_singleton] at hrep; subst hrep
            exact repIn_unproc_self

/-- The same configuration with path exclusion turned off. -/
def noPaths (cfg : Cfg) : Cfg := { cfg with exclude_paths := [] }

/-- Walking from position `acc`, none of the strict prefixes of
    `acc ++ p` that extend `acc` (including `acc` itself when `p ≠ []`)
    renders to an excluded path string. -/
def cleanBelow (E : List String) : List Step → List Step → Bool
  | _, [] => true
  | acc, s :: rest => decide (render acc ∉ E) && cleanBelow E (acc ++ [s]) rest

/-- Whether a report of the exclusion-free run survives path exclusion
    with excluded set `E`: no strict ancestor position may be excluded,
    and for every report except the mapping visitor's `matched_paths`
    report the position itself may not be excluded either. -/
def keepRep (E : List String) : Report → Bool
  | .mpath p _ => cleanBelow E [] p
  | .mval p _ => cleanBelow E [] p && decide (render p ∉ E)
  | .unproc p => cleanBelow E [] p && decide (render p ∉ E)
  | .warnSet p => cleanBelow E [] p && decide (render p ∉ E)

theorem isExcludedType_noPaths (cfg : Cfg) (h : Heap) (r : Nat) :
    isExcludedType (noPaths cfg) h r = isExcludedType cfg h r := rfl

theorem skipThis_noPaths (cfg : Cfg) (h : Heap) (r : Nat) (s : String) :
    skipThis (noPaths cfg) h r s = isExcludedType cfg h r := by
  unfold skipThis
  rw [if_neg]
  · rfl
  · simp [noPaths]

theorem cleanBelow_snoc (E : List String) :
    ∀ (p acc : List Step) (s : Step),
      cleanBelow E acc (p ++ [s]) =
        (cleanBelow E acc p && decide (render (acc ++ p) ∉ E)) := by
  intro p
  induction p with
  | nil => intro acc s; simp [cleanBelow]
  | cons y rest ih =>
    intro acc s
    simp only [List.cons_append, cleanBelow, List.append_eq]
    rw [ih (acc ++ [y]) s, List.append_assoc]
    simp [Bool.and_assoc]

theorem cleanBelow_nil_snoc (E : List String) (p : List Step) (s : Step) :
    cleanBelow E [] (p ++ [s]) =
      (cleanBelow E [] p && decide (render p ∉ E)) := by
  rw [cleanBelow_snoc]; simp

theorem cleanBelow_false_of_mem (E : List String) :
    ∀ (q : List Step) (t acc : List Step), t ≠ [] →
      render (acc ++ q) ∈ E → cleanBelow E acc (q ++ t) = false := by
  intro q
  induction q with
  | nil =>
    intro t acc ht hmem
    cases t with
    | nil => exact absurd rfl ht
    | cons s rest =>
      rw [List.append_nil] at hmem
      simp [cleanBelow, hmem]
  | cons y q' ih =>
    intro t acc ht hmem
    simp only [List.cons_append, cleanBelow]
    have hsub : cleanBelow E (acc ++ [y]) (q' ++ t) = false := by
      apply ih t (acc ++ [y]) ht
      rw [List.append_assoc]
      simpa using hmem
    simp [hsub]

/-- A report located at or strictly below an excluded position never
    survives the filter. -/
theorem keepRep_false_of_below {E : List String} {path : List Step}
    {rep : Report} (hmem : render path ∈ E) (hrep : RepIn path rep) :
    keepRep E rep = false := by
  obtain ⟨⟨t, ht⟩, hmp⟩ := hrep
  have hclean : t ≠ [] → cleanBelow E [] (path ++ t) = false := fun ht' => by
    have := cleanBelow_false_of_mem E path t [] ht' (by simpa using hmem)
    simpa using this
  cases rep with
  | mpath p v =>
    have hlt := hmp p v rfl
    simp only [Report.pathOf] at ht
    have ht' : t ≠ [] := by
      intro h0
      subst h0
      rw [List.append_nil] at ht
      subst ht
      exact lt_irrefl _ hlt
    show cleanBelow E [] p = false
    rw [← ht]
    exact hclean ht'
  | mval p v =>
    simp only [Report.pathOf] at ht
    cases t with
    | nil =>
      rw [List.append_nil] at ht
      subst ht
      simp [keepRep, hmem]
    | cons s rest =>
      show (cleanBelow E [] p && _) = false
      rw [← ht, hclean (by simp)]
      simp
  | unproc p =>
    simp only [Report.pathOf] at ht
    cases t with
    | nil =>
      rw [List.append_nil] at ht
      subst ht
      simp [keepRep, hmem]
    | cons s rest =>
      show (cleanBelow E [] p && _) = false
      rw [← ht, hclean (by simp)]
      simp
  | warnSet p =>
    simp only [Report.pathOf] at ht
    cases t with
    | nil =>
      rw [List.append_nil] at ht
      subst ht
      simp [keepRep, hmem]
    | cons s rest =>
      show (cleanBelow E [] p && _) = false
      rw [← ht, hclean (by simp)]
      simp

theorem skipThis_of_type {cfg : Cfg} {h : Heap} {r : Nat} (s : String)
    (hex : isExcludedType cfg h r = true) : skipThis cfg h r s = true := by
  unfold skipThis
  split <;> simp [hex]

theorem skipThis_false_intro {cfg : Cfg} {h : Heap} {r : Nat} {s : String}
    (hm : s ∉ cfg.exclude_paths) (hex : isExcludedType cfg h r = false) :
    skipThis cfg h r s = false := by
  unfold skipThis
  rw [if_neg hm]
  exact hex

/-- Simulation for the mapping visitor: running it under path exclusion
    yields exactly the filtered reports of the exclusion-free run. -/
theorem searchDictGo_sim {E : List String} {h : Heap} {item : Nat}
    {goE go0 : Nat → List Step → List Nat → Option (List Report)}
    {attrMode : Bool} {path : List Step}
    (hsim : ∀ c np pids rs, cleanBelow E [] np = true →
      go0 c np pids = some rs → goE c np pids = some (rs.filter (keepRep E)))
    (hclean : cleanBelow E [] path = true) (hpath : render path ∉ E) :
    ∀ entries pids rs,
      searchDictGo h item go0 attrMode path entries pids = some rs →
      searchDictGo h item goE attrMode path entries pids =
        some (rs.filter (keepRep E)) := by
  have hcleanNp : ∀ s : Step, cleanBelow E [] (path ++ [s]) = true := by
    intro s
    rw [cleanBelow_nil_snoc]
    simp [hclean, hpath]
  intro entries
  induction entries with
  | nil =>
    intro pids rs hrs
    simp only [searchDictGo, Option.some.injEq] at hrs ⊢
    subst hrs; rfl
  | cons kc rest ih =>
    obtain ⟨k, c⟩ := kc
    intro pids rs hrs
    simp only [searchDictGo] at hrs ⊢
    by_cases hcy : pids ≠ [] ∧ c ∈ pids
    · rw [if_pos hcy] at hrs ⊢
      exact ih pids rs hrs
    · rw [if_neg hcy] at hrs ⊢
      generalize hst : (if attrMode = true then Step.attr k else Step.key k) = st at hrs ⊢
      cases hg : go0 c (path ++ [st]) (addId pids c) with
      | none => rw [hg] at hrs; exact absurd hrs (by simp)
      | some rs1 =>
        rw [hg] at hrs
        cases hr : searchDictGo h item go0 attrMode path rest pids with
        | none => rw [hr] at hrs; exact absurd hrs (by simp)
        | some rest0 =>
          rw [hr] at hrs
          simp only [Option.some.injEq] at hrs
          subst hrs
          rw [hsim c _ _ _ (hcleanNp st) hg, ih pids rest0 hr]
          simp only [Option.some.injEq, List.filter_append]
          have hhere :
              List.filter (keepRep E)
                (if strContains (render (path ++ [st])) (pyStr h item) = true then
                  [Report.mpath (path ++ [st]) c]
                else []) =
              (if strContains (render (path ++ [st])) (pyStr h item) = true then
                [Report.mpath (path ++ [st]) c]
              else []) := by
            split
            · simp [List.filter, keepRep, hcleanNp st]
            · rfl
          rw [hhere]

/-- Simulation for the iterable visitor. -/
theorem searchIterGo_sim {cfg : Cfg} {h : Heap} {item : Nat}
    {goE go0 : Nat → List Step → List Nat → Option (List Report)}
    {path : List Step}
    (hgo0 : ∀ c np pids rs, go0 c np pids = some rs → ∀ rep ∈ rs, RepIn np rep)
    (hsim : ∀ c np pids rs, cleanBelow cfg.exclude_paths [] np = true →
      go0 c np pids = some rs →
      goE c np pids = some (rs.filter (keepRep cfg.exclude_paths)))
    (hclean : cleanBelow cfg.exclude_paths [] path = true)
    (hpath : render path ∉ cfg.exclude_paths) :
    ∀ elems i pids rs,
      searchIterGo (noPaths cfg) h item go0 path elems i pids = some rs →
      searchIterGo cfg h item goE path elems i pids =
        some (rs.filter (keepRep cfg.exclude_paths)) := by
  have hcleanNp : ∀ s : Step,
      cleanBelow cfg.exclude_paths [] (path ++ [s]) = true := by
    intro s
    rw [cleanBelow_nil_snoc]
    simp [hclean, hpath]
  intro elems
  induction elems with
  | nil =>
    intro i pids rs hrs
    simp only [searchIterGo, Option.some.injEq] at hrs ⊢
    subst hrs; rfl
  | cons x rest ih =>
    intro i pids rs hrs
    simp only [searchIterGo] at hrs ⊢
    by_cases hex : isExcludedType cfg h x = true
    · rw [skipThis_noPaths, if_pos hex] at hrs
      rw [if_pos (skipThis_of_type _ hex)]
      exact ih (i + 1) pids rs hrs
    · rw [skipThis_noPaths, if_neg (by simp [hex])] at hrs
      rw [Bool.not_eq_true] at hex
      by_cases hmem : render (path ++ [Step.idx i]) ∈ cfg.exclude_paths
      · -- excluded under `cfg`, traversed in the exclusion-free run
        rw [if_pos (by unfold skipThis; rw [if_pos hmem])]
        split at hrs
        · -- value match reported by the exclusion-free run, dropped by the filter
          cases hr : searchIterGo (noPaths cfg) h item go0 path rest (i + 1) pids with
          | none => rw [hr] at hrs; exact absurd hrs (by simp)
          | some rest0 =>
            rw [hr] at hrs
            simp only [Option.some.injEq] at hrs
            subst hrs
            have hdrop : keepRep cfg.exclude_paths
                (Report.mval (path ++ [Step.idx i]) x) = false := by
              simp [keepRep, hmem]
            rw [ih (i + 1) pids rest0 hr]
            simp [List.filter, hdrop]
        · split at hrs
          · exact ih (i + 1) pids rs hrs
          · cases hg : go0 x (path ++ [Step.idx i]) (addId pids x) with
            | none => rw [hg] at hrs; exact absurd hrs (by simp)
            | some rs1 =>
              rw [hg] at hrs
              cases hr : searchIterGo (noPaths cfg) h item go0 path rest (i + 1) pids with
              | none => rw [hr] at hrs; exact absurd hrs (by simp)
              | some rest0 =>
                rw [hr] at hrs
                simp only [Option.some.injEq] at hrs
                subst hrs
                have hnil : rs1.filter (keepRep cfg.exclude_paths) = [] := by
                  rw [List.filter_eq_nil_iff]
                  intro rep hrep
                  rw [keepRep_false_of_below hmem (hgo0 _ _ _ _ hg rep hrep)]
                  simp
                rw [ih (i + 1) pids rest0 hr]
                simp [List.filter_append, hnil]
      · rw [if_neg (by rw [skipThis_false_intro hmem hex]; simp)]
        split at hrs
        · rename_i heq
          rw [if_pos heq]
          cases hr : searchIterGo (noPaths cfg) h item go0 path rest (i + 1) pids with
          | none => rw [hr] at hrs; exact absurd hrs (by simp)
          | some rest0 =>
            rw [hr] at hrs
            simp only [Option.some.injEq] at hrs
            subst hrs
            have hkeep : keepRep cfg.exclude_paths
                (Report.mval (path ++ [Step.idx i]) x) = true := by
              simp [keepRep, hcleanNp (Step.idx i), hmem]
            rw [ih (i + 1) pids rest0 hr]
            simp [List.filter, hkeep]
        · rename_i heq
          rw [if_neg heq]
          split at hrs
          · rename_i hcy
            rw [if_pos hcy]
            exact ih (i + 1) pids rs hrs
          · rename_i hcy
            rw [if_neg hcy]
            cases hg : go0 x (path ++ [Step.idx i]) (addId pids x) with
            | none => rw [hg] at hrs; exact absurd hrs (by simp)
            | some rs1 =>
              rw [hg] at hrs
              cases hr : searchIterGo (noPaths cfg) h item go0 path rest (i + 1) pids with
              | none => rw [hr] at hrs; exact absurd hrs (by simp)
              | some rest0 =>
                rw [hr] at hrs
                simp only [Option.some.injEq] at hrs
                subst hrs
                rw [hsim x _ _ _ (hcleanNp (Step.idx i)) hg, ih (i + 1) pids rest0 hr]
                simp [List.filter_append]

/-- Simulation for the dispatcher: whenever the exclusion-free run
    completes, the run under path exclusion completes and produces exactly
    the reports that survive `keepRep`. -/
theorem searchF_sim (cfg : Cfg) (h : Heap) (item : Nat) :
    ∀ fuel r path pids rs,
      cleanBelow cfg.exclude_paths [] path = true →
      searchF (noPaths cfg) h item fuel r path pids = some rs →
      searchF cfg h item fuel r path pids =
        some (rs.filter (keepRep cfg.exclude_paths)) := by
  intro fuel
  induction fuel with
  | zero => intro r path pids rs _ hrs; exact absurd hrs (by simp [searchF])
  | succ fuel ih =>
    intro r path pids rs hclean hrs
    simp only [searchF] at hrs ⊢
    by_cases hext : isExcludedType cfg h item = true
    · rw [skipThis_noPaths, if_pos hext] at hrs
      rw [if_pos (skipThis_of_type _ hext)]
      simp only [Option.some.injEq] at hrs
      subst hrs; rfl
    · rw [skipThis_noPaths, if_neg (by simp [hext])] at hrs
      rw [Bool.not_eq_true] at hext
      by_cases hmem : render path ∈ cfg.exclude_paths
      · -- the position itself is excluded: `cfg` skips, and every report
        -- of the exclusion-free run is filtered out
        rw [if_pos (by unfold skipThis; rw [if_pos hmem])]
        have hnil : rs.filter (keepRep cfg.exclude_paths) = [] := by
          rw [List.filter_eq_nil_iff]
          intro rep hrep
          rw [keepRep_false_of_below hmem
            (searchF_repIn (noPaths cfg) h item (fuel + 1) r path pids rs
              (by simp only [searchF]
                  rw [skipThis_noPaths, if_neg (by simp [hext])]
                  exact hrs) rep hrep)]
          simp
        rw [hnil]
      · rw [if_neg (by rw [skipThis_false_intro hmem hext]; simp)]
        have hkeepAt : ∀ v : Nat,
            keepRep cfg.exclude_paths (Report.mval path v) = true := by
          intro v; simp [keepRep, hclean, hmem]
        cases hlk : List.lookup r h with
        | none =>
          rw [hlk] at hrs
          simp only [Option.some.injEq] at hrs
          subst hrs; rfl
        | some node =>
          rw [hlk] at hrs
          cases node with
          | str s =>
            cases hli : List.lookup item h with
            | none =>
              rw [hli] at hrs
              simp only [Option.some.injEq] at hrs
              subst hrs; rfl
            | some inode =>
              rw [hli] at hrs
              cases inode with
              | str t =>
                simp only [Option.some.injEq] at hrs
                subst hrs
                show (some (if strContains s t = true then [Report.mval path r] else []) :
                    Option (List Report)) =
                  some (List.filter (keepRep cfg.exclude_paths)
                    (if strContains s t = true then [Report.mval path r] else []))
                by_cases hsc : strContains s t = true
                · rw [if_pos hsc]
                  simp [List.filter, hkeepAt]
                · rw [if_neg hsc]
                  rfl
              | num n =>
                simp only [Option.some.injEq] at hrs
                subst hrs
                show (some [] : Option (List Report)) = _
                rfl
              | dict entries =>
                simp only [Option.some.injEq] at hrs
                subst hrs
                show (some [] : Option (List Report)) = _
                rfl
              | list elems =>
                simp only [Option.some.injEq] at hrs
                subst hrs
                show (some [] : Option (List Report)) = _
                rfl
              | tuple elems asdict =>
                simp only [Option.some.injEq] at hrs
                subst hrs
                show (some [] : Option (List Report)) = _
                rfl
              | set elems =>
                simp only [Option.some.injEq] at hrs
                subst hrs
                show (some [] : Option (List Report)) = _
                rfl
              | obj dct slots =>
                simp only [Option.some.injEq] at hrs
                subst hrs
                show (some [] : Option (List Report)) = _
                rfl
          | num n =>
            simp only [Option.some.injEq] at hrs
            subst hrs
            show (some (if pyEqTop h item r = true then [Report.mval path r] else []) :
                Option (List Report)) =
              some (List.filter (keepRep cfg.exclude_paths)
                (if pyEqTop h item r = true then [Report.mval path r] else []))
            by_cases hpe : pyEqTop h item r = true
            · rw [if_pos hpe]
              simp [List.filter, hkeepAt]
            · rw [if_neg hpe]
              rfl
          | dict entries =>
            exact searchDictGo_sim (fun c np pids' rs' hcl hg => ih c np pids' rs' hcl hg)
              hclean hmem entries pids rs hrs
          | list elems =>
            exact searchIterGo_sim (searchF_repIn (noPaths cfg) h item fuel)
              (fun c np pids' rs' hcl hg => ih c np pids' rs' hcl hg)
              hclean hmem elems 0 pids rs hrs
          | tuple elems asdict =>
            cases asdict with
            | some fields =>
              exact searchDictGo_sim (fun c np pids' rs' hcl hg => ih c np pids' rs' hcl hg)
                hclean hmem (strFields fields) pids rs hrs
            | none =>
              exact searchIterGo_sim (searchF_repIn (noPaths cfg) h item fuel)
                (fun c np pids' rs' hcl hg => ih c np pids' rs' hcl hg)
                hclean hmem elems 0 pids rs hrs
          | set elems =>
            replace hrs :
                (match searchIterGo (noPaths cfg) h item
                    (searchF (noPaths cfg) h item fuel) path elems 0 pids with
                  | none => none
                  | some rs1 => some (Report.warnSet path :: rs1)) = some rs := hrs
            show (match searchIterGo cfg h item
                (searchF cfg h item fuel) path elems 0 pids with
              | none => none
              | some rs1 => some (Report.warnSet path :: rs1)) =
              some (List.filter (keepRep cfg.exclude_paths) rs)
            cases hit : searchIterGo (noPaths cfg) h item
                (searchF (noPaths cfg) h item fuel) path elems 0 pids with
            | none => rw [hit] at hrs; exact absurd hrs (by simp)
            | some rs1 =>
              rw [hit] at hrs
              simp only [Option.some.injEq] at hrs
              subst hrs
              rw [searchIterGo_sim (searchF_repIn (noPaths cfg) h item fuel)
                (fun c np pids' rs' hcl hg => ih c np pids' rs' hcl hg)
                hclean hmem elems 0 pids rs1 hit]
              have hkeepW : keepRep cfg.exclude_paths (Report.warnSet path) = true := by
                simp [keepRep, hclean, hmem]
              simp [List.filter, hkeepW]
          | obj dct slots =>
            cases dct with
            | some fields =>
              exact searchDictGo_sim (fun c np pids' rs' hcl hg => ih c np pids' rs' hcl hg)
                hclean hmem (strFields fields) pids rs hrs
            | none =>
              cases slots with
              | some fields =>
                exact searchDictGo_sim (fun c np pids' rs' hcl hg => ih c np pids' rs' hcl hg)
                  hclean hmem (strFields fields) pids rs hrs
              | none =>
                replace hrs : (some [Report.unproc path] : Option (List Report)) = some rs := hrs
                simp only [Option.some.injEq] at hrs
                subst hrs
                show (some [Report.unproc path] : Option (List Report)) =
                  some (List.filter (keepRep cfg.exclude_paths) [Report.unproc path])
                have hkeepU : keepRep cfg.exclude_paths (Report.unproc path) = true := by
                  simp [keepRep, hclean, hmem]
                simp [List.filter, hkeepU]

/-- All child references stored in a node. -/
def nodeRefs : PyNode → List Nat
  | .str _ => []
  | .num _ => []
  | .dict entries => entries.map Prod.snd
  | .list xs => xs
  | .tuple xs asdict => xs ++ (asdict.elim [] (fun fs => fs.map Prod.snd))
  | .set xs => xs
  | .obj dct slots =>
      (dct.elim [] (fun fs => fs.map Prod.snd)) ++
        (slots.elim [] (fun fs => fs.map Prod.snd))

/-- The ids present in the heap. -/
def heapDom (h : Heap) : Finset Nat := (h.map Prod.fst).toFinset

/-- Every reference stored in a node of the heap resolves (true of every
    CPython object graph). -/
def Heap.WFRefs (h : Heap) : Prop :=
  ∀ pr ∈ h, ∀ c ∈ nodeRefs pr.2, (List.lookup c h).isSome = true

instance (h : Heap) : Decidable (Heap.WFRefs h) := by
  unfold Heap.WFRefs
  infer_instance

theorem lookup_mem {h : Heap} {r : Nat} {node : PyNode}
    (hlk : List.lookup r h = some node) : (r, node) ∈ h := by
  induction h with
  | nil => simp [List.lookup] at hlk
  | cons pr rest ih =>
    obtain ⟨a, b⟩ := pr
    simp only [List.lookup] at hlk
    split at hlk
    · rename_i hab
      simp only [Option.some.injEq] at hlk
      subst hlk
      have hra : r = a := by simpa using hab
      subst hra
      exact List.mem_cons_self _ _
    · exact List.mem_cons_of_mem _ (ih hlk)

theorem mem_heapDom_of_lookup {h : Heap} {r : Nat}
    (hlk : (List.lookup r h).isSome = true) : r ∈ heapDom h := by
  obtain ⟨node, hnode⟩ := Option.isSome_iff_exists.mp hlk
  have hmem := lookup_mem hnode
  unfold heapDom
  rw [List.mem_toFinset]
  exact List.mem_map.mpr ⟨(r, node), hmem, rfl⟩

/-- Inserting a fresh ancestor id strictly shrinks the unvisited part of
    the heap. -/
theorem card_sdiff_addId_lt {h : Heap} {pids : List Nat} {c : Nat}
    (hc : c ∈ heapDom h) (hcp : c ∉ pids) :
    (heapDom h \ (addId pids c).toFinset).card <
      (heapDom h \ pids.toFinset).card := by
  have haddid : addId pids c = c :: pids := by simp [addId, hcp]
  rw [haddid]
  apply Finset.card_lt_card
  rw [Finset.ssubset_iff_of_subset
    (Finset.sdiff_subset_sdiff (Finset.Subset.refl _) ?_)]
  · exact ⟨c, Finset.mem_sdiff.mpr ⟨hc, by simpa using hcp⟩, by simp⟩
  · intro x hx
    simp only [List.toFinset_cons]
    exact Finset.mem_insert_of_mem hx

theorem searchDictGo_isSome {h : Heap} {item : Nat}
    {go : Nat → List Step → List Nat → Option (List Report)}
    {attrMode : Bool} {path : List Step} {F : Nat}
    (hgo : ∀ c np pids',
      (heapDom h \ pids'.toFinset).card < F → (go c np pids').isSome = true) :
    ∀ entries pids, (∀ kc ∈ entries, kc.2 ∈ heapDom h) →
      (heapDom h \ pids.toFinset).card ≤ F →
      (searchDictGo h item go attrMode path entries pids).isSome = true := by
  intro entries
  induction entries with
  | nil => intro pids _ _; simp [searchDictGo]
  | cons kc rest ih =>
    obtain ⟨k, c⟩ := kc
    intro pids hdom hcard
    simp only [searchDictGo]
    by_cases hcy : pids ≠ [] ∧ c ∈ pids
    · rw [if_pos hcy]
      exact ih pids (fun kc hkc => hdom kc (List.mem_cons_of_mem _ hkc)) hcard
    · rw [if_neg hcy]
      have hcp : c ∉ pids := by
        by_cases hp : pids = []
        · subst hp; simp
        · intro hcmem; exact hcy ⟨hp, hcmem⟩
      have hlt : (heapDom h \ (addId pids c).toFinset).card < F :=
        lt_of_lt_of_le
          (card_sdiff_addId_lt (hdom (k, c) (List.mem_cons_self _ _)) hcp) hcard
      obtain ⟨rs1, hg⟩ := Option.isSome_iff_exists.mp (hgo c _ _ hlt)
      rw [hg]
      obtain ⟨rest0, hr⟩ := Option.isSome_iff_exists.mp
        (ih pids (fun kc hkc => hdom kc (List.mem_cons_of_mem _ hkc)) hcard)
      rw [hr]
      simp

theorem searchIterGo_isSome {cfg : Cfg} {h : Heap} {item : Nat}
    {go : Nat → List Step → List Nat → Option (List Report)}
    {path : List Step} {F : Nat}
    (hgo : ∀ c np pids',
      (heapDom h \ pids'.toFinset).card < F → (go c np pids').isSome = true) :
    ∀ elems i pids, (∀ x ∈ elems, x ∈ heapDom h) →
      (heapDom h \ pids.toFinset).card ≤ F →
      (searchIterGo cfg h item go path elems i pids).isSome = true := by
  intro elems
  induction elems with
  | nil => intro i pids _ _; simp [searchIterGo]
  | cons x rest ih =>
    intro i pids hdom hcard
    simp only [searchIterGo]
    split
    · exact ih (i + 1) pids (fun y hy => hdom y (List.mem_cons_of_mem _ hy)) hcard
    · split
      · obtain ⟨rest0, hr⟩ := Option.isSome_iff_exists.mp
          (ih (i + 1) pids (fun y hy => hdom y (List.mem_cons_of_mem _ hy)) hcard)
        rw [hr]
        simp
      · split
        · exact ih (i + 1) pids (fun y hy => hdom y (List.mem_cons_of_mem _ hy)) hcard
        · rename_i hcy
          have hcp : x ∉ pids := by
            by_cases hp : pids = []
            · subst hp; simp
            · intro hxmem; exact hcy ⟨hp, hxmem⟩
          have hlt : (heapDom h \ (addId pids x).toFinset).card < F :=
            lt_of_lt_of_le
              (card_sdiff_addId_lt (hdom x (List.mem_cons_self _ _)) hcp) hcard
          obtain ⟨rs1, hg⟩ := Option.isSome_iff_exists.mp (hgo x _ _ hlt)
          rw [hg]
          obtain ⟨rest0, hr⟩ := Option.isSome_iff_exists.mp
            (ih (i + 1) pids (fun y hy => hdom y (List.mem_cons_of_mem _ hy)) hcard)
          rw [hr]
          simp

/-- Termination of the traversal: since a child is only recursed into
    after its id is added to `parents_ids` and ids already in
    `parents_ids` are skipped, fuel exceeding the number of not yet
    visited heap ids suffices (the Python recursion depth is bounded the
    same way). -/
theorem searchF_isSome (cfg : Cfg) (h : Heap) (item : Nat)
    (hwf : Heap.WFRefs h) :
    ∀ fuel r path pids,
      (heapDom h \ pids.toFinset).card < fuel →
      (searchF cfg h item fuel r path pids).isSome = true := by
  intro fuel
  induction fuel with
  | zero => intro r path pids hcard; exact absurd hcard (by simp)
  | succ fuel ih =>
    intro r path pids hcard
    have hcard' : (heapDom h \ pids.toFinset).card ≤ fuel :=
      Nat.lt_succ_iff.mp hcard
    have hgo : ∀ c np pids',
        (heapDom h \ pids'.toFinset).card < fuel →
        (searchF cfg h item fuel c np pids').isSome = true :=
      fun c np pids' hlt => ih c np pids' hlt
    simp only [searchF]
    split
    · simp
    · cases hlk : List.lookup r h with
      | none => simp
      | some node =>
        have hrefs : ∀ c ∈ nodeRefs node, c ∈ heapDom h := fun c hc =>
          mem_heapDom_of_lookup (hwf (r, node) (lookup_mem hlk) c hc)
        cases node with
        | str s =>
          cases List.lookup item h with
          | none => simp
          | some inode => cases inode <;> simp
        | num n => simp
        | dict entries =>
          exact searchDictGo_isSome hgo entries pids
            (fun kc hkc => hrefs kc.2 (by
              simp only [nodeRefs]
              exact List.mem_map.mpr ⟨kc, hkc, rfl⟩)) hcard'
        | list elems =>
          exact searchIterGo_isSome hgo elems 0 pids
            (fun x hx => hrefs x (by simpa [nodeRefs] using hx)) hcard'
        | tuple elems asdict =>
          cases asdict with
          | some fields =>
            refine searchDictGo_isSome hgo (strFields fields) pids ?_ hcard'
            intro kc hkc
            apply hrefs kc.2
            simp only [nodeRefs, Option.elim]
            apply List.mem_append_right
            obtain ⟨kv, hkv, hkveq⟩ := List.mem_map.mp hkc
            exact List.mem_map.mpr ⟨kv, hkv, by rw [← hkveq]⟩
          | none =>
            exact searchIterGo_isSome hgo elems 0 pids
              (fun x hx => hrefs x (by
                simp only [nodeRefs, Option.elim]
                exact List.mem_append_left _ hx)) hcard'
        | set elems =>
          obtain ⟨rs1, hit⟩ := Option.isSome_iff_exists.mp
            (searchIterGo_isSome hgo elems 0 pids
              (fun x hx => hrefs x (by simpa [nodeRefs] using hx)) hcard')
          show (match searchIterGo cfg h item (searchF cfg h item fuel)
              path elems 0 pids with
            | none => none
            | some rs1 => some (Report.warnSet path :: rs1)).isSome = true
          rw [hit]
          simp
        | obj dct slots =>
          cases dct with
          | some fields =>
            refine searchDictGo_isSome hgo (strFields fields) pids ?_ hcard'
            intro kc hkc
            apply hrefs kc.2
            simp only [nodeRefs, Option.elim]
            apply List.mem_append_left
            obtain ⟨kv, hkv, hkveq⟩ := List.mem_map.mp hkc
            exact List.mem_map.mpr ⟨kv, hkv, by rw [← hkveq]⟩
          | none =>
            cases slots with
            | some fields =>
              refine searchDictGo_isSome hgo (strFields fields) pids ?_ hcard'
              intro kc hkc
              apply hrefs kc.2
              simp only [nodeRefs, Option.elim]
              apply List.mem_append_right
              obtain ⟨kv, hkv, hkveq⟩ := List.mem_map.mp hkc
              exact List.mem_map.mpr ⟨kv, hkv, by rw [← hkveq]⟩
            | none => simp

/-- The child reached from node `r` by one path step, mirroring the
    access each visitor performs (`obj[item_key]`, `enumerate`,
    `_asdict`/`__dict__`/`__slots__` fields). -/
def childOf (h : Heap) (r : Nat) (s : Step) : Option Nat :=
  match List.lookup r h, s with
  | some (.dict entries), .key k => List.lookup k entries
  | some (.list xs), .idx i => xs.get? i
  | some (.set xs), .idx i => xs.get? i
  | some (.tuple xs none), .idx i => xs.get? i
  | some (.tuple _ (some fields)), .attr (.str a) => List.lookup a fields
  | some (.obj (some fields) _), .attr (.str a) => List.lookup a fields
  | some (.obj none (some fields)), .attr (.str a) => List.lookup a fields
  | _, _ => none

/-- Resolve a structural path starting from a given id. -/
def resolvePath (h : Heap) : List Step → Nat → Option Nat
  | [], r => some r
  | s :: rest, r =>
    match childOf h r s with
    | some c => resolvePath h rest c
    | none => none

theorem resolvePath_snoc (h : Heap) :
    ∀ (p : List Step) (s : Step) (r : Nat),
      resolvePath h (p ++ [s]) r =
        (resolvePath h p r).bind (fun q => childOf h q s) := by
  intro p
  induction p with
  | nil =>
    intro s r
    simp only [List.nil_append, resolvePath]
    cases hc : childOf h r s <;> simp [resolvePath, hc]
  | cons y rest ih =>
    intro s r
    simp only [List.cons_append, resolvePath]
    cases hc : childOf h r y <;> simp [hc, ih]

/-- Keys are duplicate-free, as they are in every Python `dict`
    (including `__dict__` and `_asdict()` results). -/
def keysNodupB : PyNode → Bool
  | .dict entries => decide (entries.map Prod.fst).Nodup
  | .tuple _ (some fields) => decide (fields.map Prod.fst).Nodup
  | .obj (some fields) _ => decide (fields.map Prod.fst).Nodup
  | .obj none (some fields) => decide (fields.map Prod.fst).Nodup
  | _ => true

def Heap.WFKeys (h : Heap) : Bool :=
  h.all (fun pr => keysNodupB pr.2)

theorem lookup_of_mem_keys_nodup {α : Type} {β : Type} [DecidableEq α]
    {l : List (α × β)} {k : α} {v : β}
    (hmem : (k, v) ∈ l) (hnd : (l.map Prod.fst).Nodup) :
    List.lookup k l = some v := by
  induction l with
  | nil => simp at hmem
  | cons pr rest ih =>
    obtain ⟨a, b⟩ := pr
    simp only [List.map_cons, List.nodup_cons] at hnd
    rcases List.mem_cons.1 hmem with heq | hmem'
    · rw [Prod.mk.injEq] at heq
      obtain ⟨hk, hv⟩ := heq
      subst hk; subst hv
      simp [List.lookup]
    · have hka : k ≠ a := by
        intro hk
        subst hk
        exact hnd.1 (List.mem_map.mpr ⟨(k, v), hmem', rfl⟩)
      simp only [List.lookup, beq_eq_false_iff_ne.mpr hka]
      exact ih hmem' hnd.2

/-- Value correctness for the mapping visitor: every `matched_paths` or
    `matched_values` report pairs a path with the id that path resolves
    to. -/
theorem searchDictGo_resolves {h : Heap} {item : Nat}
    {go : Nat → List Step → List Nat → Option (List Report)}
    {attrMode : Bool} {path : List Step} {root r : Nat}
    (hgo : ∀ c np pids rs, resolvePath h np root = some c →
      go c np pids = some rs →
      ∀ p v, (Report.mpath p v ∈ rs ∨ Report.mval p v ∈ rs) →
        resolvePath h p root = some v)
    (hr : resolvePath h path root = some r) :
    ∀ entries,
      (∀ kc ∈ entries,
        childOf h r (if attrMode = true then Step.attr kc.1 else Step.key kc.1) =
          some kc.2) →
      ∀ pids rs, searchDictGo h item go attrMode path entries pids = some rs →
      ∀ p v, (Report.mpath p v ∈ rs ∨ Report.mval p v ∈ rs) →
        resolvePath h p root = some v := by
  intro entries
  induction entries with
  | nil =>
    intro _ pids rs hrs p v hmem
    simp only [searchDictGo, Option.some.injEq] at hrs
    subst hrs
    rcases hmem with hmem | hmem <;> simp at hmem
  | cons kc rest ih =>
    obtain ⟨k, c⟩ := kc
    intro hchild pids rs hrs p v hmem
    simp only [searchDictGo] at hrs
    split at hrs
    · exact ih (fun kc hkc => hchild kc (List.mem_cons_of_mem _ hkc))
        pids rs hrs p v hmem
    · generalize hst : (if attrMode = true then Step.attr k else Step.key k) = st at hrs
      have hresNp : resolvePath h (path ++ [st]) root = some c := by
        rw [resolvePath_snoc, hr]
        have := hchild (k, c) (List.mem_cons_self _ _)
        rw [hst] at this
        simpa using this
      cases hg : go c (path ++ [st]) (addId pids c) with
      | none => rw [hg] at hrs; exact absurd hrs (by simp)
      | some rs1 =>
        rw [hg] at hrs
        cases hrst : searchDictGo h item go attrMode path rest pids with
        | none => rw [hrst] at hrs; exact absurd hrs (by simp)
        | some rest0 =>
          rw [hrst] at hrs
          simp only [Option.some.injEq] at hrs
          subst hrs
          have hrest := ih (fun kc hkc => hchild kc (List.mem_cons_of_mem _ hkc))
            pids rest0 hrst p v
          have hchunk := hgo c (path ++ [st]) (addId pids c) rs1 hresNp hg p v
          rcases hmem with hmem | hmem
          · rcases List.mem_append.1 hmem with hmem1 | hmem2
            · rcases List.mem_append.1 hmem1 with hh | h1
              · split at hh
                · rw [List.mem_singleton] at hh
                  rw [Report.mpath.injEq] at hh
                  obtain ⟨hp, hv⟩ := hh
                  subst hp; subst hv
                  exact hresNp
                · exact absurd hh (List.not_mem_nil _)
              · exact hchunk (Or.inl h1)
            · exact hrest (Or.inl hmem2)
          · rcases List.mem_append.1 hmem with hmem1 | hmem2
            · rcases List.mem_append.1 hmem1 with hh | h1
              · split at hh
                · rw [List.mem_singleton] at hh
                  exact absurd hh (by simp)
                · exact absurd hh (List.not_mem_nil _)
              · exact hchunk (Or.inr h1)
            · exact hrest (Or.inr hmem2)

/-- Value correctness for the iterable visitor. -/
theorem searchIterGo_resolves {cfg : Cfg} {h : Heap} {item : Nat}
    {go : Nat → List Step → List Nat → Option (List Report)}
    {path : List Step} {root r : Nat}
    (hgo : ∀ c np pids rs, resolvePath h np root = some c →
      go c np pids = some rs →
      ∀ p v, (Report.mpath p v ∈ rs ∨ Report.mval p v ∈ rs) →
        resolvePath h p root = some v)
    (hr : resolvePath h path root = some r) :
    ∀ elems i,
      (∀ j x, elems.get? j = some x → childOf h r (Step.idx (i + j)) = some x) →
      ∀ pids rs, searchIterGo cfg h item go path elems i pids = some rs →
      ∀ p v, (Report.mpath p v ∈ rs ∨ Report.mval p v ∈ rs) →
        resolvePath h p root = some v := by
  intro elems
  induction elems with
  | nil =>
    intro i _ pids rs hrs p v hmem
    simp only [searchIterGo, Option.some.injEq] at hrs
    subst hrs
    rcases hmem with hmem | hmem <;> simp at hmem
  | cons x rest ih =>
    intro i hchild pids rs hrs p v hmem
    have hchild' : ∀ j y, rest.get? j = some y →
        childOf h r (Step.idx (i + 1 + j)) = some y := by
      intro j y hy
      have := hchild (j + 1) y (by simpa using hy)
      rwa [show i + (j + 1) = i + 1 + j by omega] at this
    have hresNp : resolvePath h (path ++ [Step.idx i]) root = some x := by
      rw [resolvePath_snoc, hr]
      have := hchild 0 x (by simp)
      simpa using this
    simp only [searchIterGo] at hrs
    split at hrs
    · exact ih (i + 1) hchild' pids rs hrs p v hmem
    · split at hrs
      · cases hrst : searchIterGo cfg h item go path rest (i + 1) pids with
        | none => rw [hrst] at hrs; exact absurd hrs (by simp)
        | some rest0 =>
          rw [hrst] at hrs
          simp only [Option.some.injEq] at hrs
          subst hrs
          have hrest := ih (i + 1) hchild' pids rest0 hrst p v
          rcases hmem with hmem | hmem
          · rcases List.mem_cons.1 hmem with hh | hmem2
            · exact absurd hh (by simp)
            · exact hrest (Or.inl hmem2)
          · rcases List.mem_cons.1 hmem with hh | hmem2
            · rw [Report.mval.injEq] at hh
              obtain ⟨hp, hv⟩ := hh
              subst hp; subst hv
              exact hresNp
            · exact hrest (Or.inr hmem2)
      · split at hrs
        · exact ih (i + 1) hchild' pids rs hrs p v hmem
        · cases hg : go x (path ++ [Step.idx i]) (addId pids x) with
          | none => rw [hg] at hrs; exact absurd hrs (by simp)
          | some rs1 =>
            rw [hg] at hrs
            cases hrst : searchIterGo cfg h item go path rest (i + 1) pids with
            | none => rw [hrst] at hrs; exact absurd hrs (by simp)
            | some rest0 =>
              rw [hrst] at hrs
              simp only [Option.some.injEq] at hrs
              subst hrs
              have hrest := ih (i + 1) hchild' pids rest0 hrst p v
              have hchunk := hgo x (path ++ [Step.idx i]) (addId pids x) rs1 hresNp hg p v
              rcases hmem with hmem | hmem
              · rcases List.mem_append.1 hmem with h1 | hmem2
                · exact hchunk (Or.inl h1)
                · exact hrest (Or.inl hmem2)
              · rcases List.mem_append.1 hmem with h1 | hmem2
                · exact hchunk (Or.inr h1)
                · exact hrest (Or.inr hmem2)

/-- Value correctness of the dispatcher: in every `matched_paths` or
    `matched_values` report, the recorded value is the one sitting at the
    recorded path (assuming duplicate-free keys, as in Python dicts). -/
theorem searchF_resolves (cfg : Cfg) (h : Heap) (item root : Nat)
    (hwk : Heap.WFKeys h = true) :
    ∀ fuel r path pids rs,
      resolvePath h path root = some r →
      searchF cfg h item fuel r path pids = some rs →
      ∀ p v, (Report.mpath p v ∈ rs ∨ Report.mval p v ∈ rs) →
        resolvePath h p root = some v := by
  unfold Heap.WFKeys at hwk
  intro fuel
  induction fuel with
  | zero => intro r path pids rs _ hrs; exact absurd hrs (by simp [searchF])
  | succ fuel ih =>
    intro r path pids rs hres hrs p v hmem
    simp only [searchF] at hrs
    split at hrs
    · simp only [Option.some.injEq] at hrs
      subst hrs
      rcases hmem with hmem | hmem <;> simp at hmem
    · cases hlk : List.lookup r h with
      | none =>
        rw [hlk] at hrs
        simp only [Option.some.injEq] at hrs
        subst hrs
        rcases hmem with hmem | hmem <;> simp at hmem
      | some node =>
        rw [hlk] at hrs
        have hnd : keysNodupB node = true :=
          List.all_eq_true.mp hwk (r, node) (lookup_mem hlk)
        cases node with
        | str s =>
          cases hli : List.lookup item h with
          | none =>
            rw [hli] at hrs
            simp only [Option.some.injEq] at hrs
            subst hrs
            rcases hmem with hmem | hmem <;> simp at hmem
          | some inode =>
            rw [hli] at hrs
            cases inode with
            | str t =>
              replace hrs :
                  (some (if strContains s t = true then [Report.mval path r] else []) :
                    Option (List Report)) = some rs := hrs
              simp only [Option.some.injEq] at hrs
              subst hrs
              split at hmem
              · rcases hmem with hmem | hmem
                · exact absurd hmem (by simp)
                · rw [List.mem_singleton, Report.mval.injEq] at hmem
                  obtain ⟨hp, hv⟩ := hmem
                  subst hp; subst hv
                  exact hres
              · rcases hmem with hmem | hmem <;> simp at hmem
            | num n =>
              replace hrs : (some [] : Option (List Report)) = some rs := hrs
              simp only [Option.some.injEq] at hrs
              subst hrs
              rcases hmem with hmem | hmem <;> simp at hmem
            | dict entries =>
              replace hrs : (some [] : Option (List Report)) = some rs := hrs
              simp only [Option.some.injEq] at hrs
              subst hrs
              rcases hmem with hmem | hmem <;> simp at hmem
            | list elems =>
              replace hrs : (some [] : Option (List Report)) = some rs := hrs
              simp only [Option.some.injEq] at hrs
              subst hrs
              rcases hmem with hmem | hmem <;> simp at hmem
            | tuple elems asdict =>
              replace hrs : (some [] : Option (List Report)) = some rs := hrs
              simp only [Option.some.injEq] at hrs
              subst hrs
              rcases hmem with hmem | hmem <;> simp at hmem
            | set elems =>
              replace hrs : (some [] : Option (List Report)) = some rs := hrs
              simp only [Option.some.injEq] at hrs
              subst hrs
              rcases hmem with hmem | hmem <;> simp at hmem
            | obj dct slots =>
              replace hrs : (some [] : Option (List Report)) = some rs := hrs
              simp only [Option.some.injEq] at hrs
              subst hrs
              rcases hmem with hmem | hmem <;> simp at hmem
        | num n =>
          replace hrs :
              (some (if pyEqTop h item r = true then [Report.mval path r] else []) :
                Option (List Report)) = some rs := hrs
          simp only [Option.some.injEq] at hrs
          subst hrs
          split at hmem
          · rcases hmem with hmem | hmem
            · exact absurd hmem (by simp)
            · rw [List.mem_singleton, Report.mval.injEq] at hmem
              obtain ⟨hp, hv⟩ := hmem
              subst hp; subst hv
              exact hres
          · rcases hmem with hmem | hmem <;> simp at hmem
        | dict entries =>
          refine searchDictGo_resolves
            (fun c np pids' rs' h1 h2 => ih c np pids' rs' h1 h2) hres entries
            ?_ pids rs hrs p v hmem
          intro kc hkc
          obtain ⟨k1, c1⟩ := kc
          simp only [if_neg (by simp : ¬false = true)]
          show childOf h r (Step.key k1) = some c1
          unfold childOf
          rw [hlk]
          exact lookup_of_mem_keys_nodup hkc (of_decide_eq_true hnd)
        | list elems =>
          refine searchIterGo_resolves
            (fun c np pids' rs' h1 h2 => ih c np pids' rs' h1 h2) hres elems 0
            ?_ pids rs hrs p v hmem
          intro j x hx
          unfold childOf
          rw [hlk, Nat.zero_add]
          exact hx
        | tuple elems asdict =>
          cases asdict with
          | some fields =>
            refine searchDictGo_resolves
              (fun c np pids' rs' h1 h2 => ih c np pids' rs' h1 h2) hres
              (strFields fields) ?_ pids rs hrs p v hmem
            intro kc hkc
            obtain ⟨kv, hkv, hkveq⟩ := List.mem_map.mp hkc
            subst hkveq
            simp only [if_pos rfl]
            show childOf h r (Step.attr (PyKey.str kv.1)) = some kv.2
            unfold childOf
            rw [hlk]
            exact lookup_of_mem_keys_nodup (by
              obtain ⟨a, b⟩ := kv
              exact hkv) (of_decide_eq_true hnd)
          | none =>
            refine searchIterGo_resolves
              (fun c np pids' rs' h1 h2 => ih c np pids' rs' h1 h2) hres elems 0
              ?_ pids rs hrs p v hmem
            intro j x hx
            unfold childOf
            rw [hlk, Nat.zero_add]
            exact hx
        | set elems =>
          replace hrs :
              (match searchIterGo cfg h item (searchF cfg h item fuel)
                  path elems 0 pids with
                | none => none
                | some rs1 => some (Report.warnSet path :: rs1)) = some rs := hrs
          cases hit : searchIterGo cfg h item (searchF cfg h item fuel)
              path elems 0 pids with
          | none => rw [hit] at hrs; exact absurd hrs (by simp)
          | some rs1 =>
            rw [hit] at hrs
            simp only [Option.some.injEq] at hrs
            subst hrs
            have htail : Report.mpath p v ∈ rs1 ∨ Report.mval p v ∈ rs1 := by
              rcases hmem with hmem | hmem
              · rcases List.mem_cons.1 hmem with hh | hmem2
                · exact absurd hh (by simp)
                · exact Or.inl hmem2
              · rcases List.mem_cons.1 hmem with hh | hmem2
                · exact absurd hh (by simp)
                · exact Or.inr hmem2
            refine searchIterGo_resolves
              (fun c np pids' rs' h1 h2 => ih c np pids' rs' h1 h2) hres elems 0
              ?_ pids rs1 hit p v htail
            intro j x hx
            unfold childOf
            rw [hlk, Nat.zero_add]
            exact hx
        | obj dct slots =>
          cases dct with
          | some fields =>
            refine searchDictGo_resolves
              (fun c np pids' rs' h1 h2 => ih c np pids' rs' h1 h2) hres
              (strFields fields) ?_ pids rs hrs p v hmem
            intro kc hkc
            obtain ⟨kv, hkv, hkveq⟩ := List.mem_map.mp hkc
            subst hkveq
            simp only [if_pos rfl]
            show childOf h r (Step.attr (PyKey.str kv.1)) = some kv.2
            unfold childOf
            rw [hlk]
            exact lookup_of_mem_keys_nodup (by
              obtain ⟨a, b⟩ := kv
              exact hkv) (of_decide_eq_true hnd)
          | none =>
            cases slots with
            | some fields =>
              refine searchDictGo_resolves
                (fun c np pids' rs' h1 h2 => ih c np pids' rs' h1 h2) hres
                (strFields fields) ?_ pids rs hrs p v hmem
              intro kc hkc
              obtain ⟨kv, hkv, hkveq⟩ := List.mem_map.mp hkc
              subst hkveq
              simp only [if_pos rfl]
              show childOf h r (Step.attr (PyKey.str kv.1)) = some kv.2
              unfold childOf
              rw [hlk]
              exact lookup_of_mem_keys_nodup (by
                obtain ⟨a, b⟩ := kv
                exact hkv) (of_decide_eq_true hnd)
            | none =>
              replace hrs : (some [Report.unproc path] : Option (List Report)) = some rs := hrs
              simp only [Option.some.injEq] at hrs
              subst hrs
              rcases hmem with hmem | hmem <;>
                · rw [List.mem_singleton] at hmem
                  exact absurd hmem (by simp)

theorem prefix_same_length_eq {α : Type} {l₁ l₂ l₃ : List α}
    (h1 : l₁ <+: l₃) (h2 : l₂ <+: l₃) (hlen : l₁.length = l₂.length) :
    l₁ = l₂ := by
  rcases List.prefix_or_prefix_of_prefix h1 h2 with hp | hp
  · exact hp.eq_of_length hlen
  · exact (hp.eq_of_length hlen.symm).symm

theorem idx_eq_of_prefixes {path q : List Step} {m n : Nat}
    (h1 : path ++ [Step.idx m] <+: q) (h2 : path ++ [Step.idx n] <+: q) :
    m = n := by
  have heq := prefix_same_length_eq h1 h2 (by simp)
  have := List.append_cancel_left heq
  simpa using this

theorem not_snoc_prefix_self {path : List Step} {s : Step} :
    ¬ (path ++ [s] <+: path) := by
  intro hpre
  have := hpre.length_le
  simp at this

/-- Every report of the iterable visitor lies at or below the position of
    one of the elements still to be processed. -/
theorem searchIterGo_rep_idx {cfg : Cfg} {h : Heap} {item : Nat}
    {go : Nat → List Step → List Nat → Option (List Report)}
    {path : List Step}
    (hgo : ∀ c np pids rs, go c np pids = some rs → ∀ rep ∈ rs, RepIn np rep) :
    ∀ elems i pids rs,
      searchIterGo cfg h item go path elems i pids = some rs →
      ∀ rep ∈ rs, ∃ m, i ≤ m ∧ (path ++ [Step.idx m]) <+: rep.pathOf := by
  intro elems
  induction elems with
  | nil =>
    intro i pids rs hrs rep hrep
    simp only [searchIterGo, Option.some.injEq] at hrs
    subst hrs
    simp at hrep
  | cons x rest ih =>
    intro i pids rs hrs rep hrep
    simp only [searchIterGo] at hrs
    split at hrs
    · obtain ⟨m, hm, hmp⟩ := ih (i + 1) pids rs hrs rep hrep
      exact ⟨m, by omega, hmp⟩
    · split at hrs
      · cases hrst : searchIterGo cfg h item go path rest (i + 1) pids with
        | none => rw [hrst] at hrs; exact absurd hrs (by simp)
        | some rest0 =>
          rw [hrst] at hrs
          simp only [Option.some.injEq] at hrs
          subst hrs
          rcases List.mem_cons.1 hrep with hh | hmem
          · subst hh
            exact ⟨i, le_refl _, List.prefix_refl _⟩
          · obtain ⟨m, hm, hmp⟩ := ih (i + 1) pids rest0 hrst rep hmem
            exact ⟨m, by omega, hmp⟩
      · split at hrs
        · obtain ⟨m, hm, hmp⟩ := ih (i + 1) pids rs hrs rep hrep
          exact ⟨m, by omega, hmp⟩
        · cases hg : go x (path ++ [Step.idx i]) (addId pids x) with
          | none => rw [hg] at hrs; exact absurd hrs (by simp)
          | some rs1 =>
            rw [hg] at hrs
            cases hrst : searchIterGo cfg h item go path rest (i + 1) pids with
            | none => rw [hrst] at hrs; exact absurd hrs (by simp)
            | some rest0 =>
              rw [hrst] at hrs
              simp only [Option.some.injEq] at hrs
              subst hrs
              rcases List.mem_append.1 hrep with h1 | hmem
              · exact ⟨i, le_refl _, (hgo _ _ _ _ hg rep h1).1⟩
              · obtain ⟨m, hm, hmp⟩ := ih (i + 1) pids rest0 hrst rep hmem
                exact ⟨m, by omega, hmp⟩

/-- An element skipped by `__skip_this` because its type is excluded
    contributes no report at or below its position. -/
theorem searchIterGo_excluded_elem {cfg : Cfg} {h : Heap} {item : Nat}
    {go : Nat → List Step → List Nat → Option (List Report)}
    {path : List Step}
    (hgo : ∀ c np pids rs, go c np pids = some rs → ∀ rep ∈ rs, RepIn np rep) :
    ∀ elems i pids rs,
      searchIterGo cfg h item go path elems i pids = some rs →
      ∀ j x, elems.get? j = some x → isExcludedType cfg h x = true →
      ∀ rep ∈ rs, ¬ ((path ++ [Step.idx (i + j)]) <+: rep.pathOf) := by
  intro elems
  induction elems with
  | nil =>
    intro i pids rs hrs j x hx
    simp at hx
  | cons x rest ih =>
    intro i pids rs hrs j y hy hex rep hrep hpre
    cases j with
    | zero =>
      have hxy : y = x := by simpa using hy.symm
      subst hxy
      simp only [searchIterGo] at hrs
      rw [if_pos (skipThis_of_type _ hex)] at hrs
      obtain ⟨m, hm, hmp⟩ := searchIterGo_rep_idx hgo rest (i + 1) pids rs hrs rep hrep
      have : i + 0 = m := idx_eq_of_prefixes hpre hmp
      omega
    | succ j' =>
      have hy' : rest.get? j' = some y := by simpa using hy
      have htgt : i + (j' + 1) = (i + 1) + j' := by omega
      rw [htgt] at hpre
      simp only [searchIterGo] at hrs
      split at hrs
      · exact ih (i + 1) pids rs hrs j' y hy' hex rep hrep hpre
      · split at hrs
        · cases hrst : searchIterGo cfg h item go path rest (i + 1) pids with
          | none => rw [hrst] at hrs; exact absurd hrs (by simp)
          | some rest0 =>
            rw [hrst] at hrs
            simp only [Option.some.injEq] at hrs
            subst hrs
            rcases List.mem_cons.1 hrep with hh | hmem
            · subst hh
              have : (i + 1) + j' = i := idx_eq_of_prefixes hpre (List.prefix_refl _)
              omega
            · exact ih (i + 1) pids rest0 hrst j' y hy' hex rep hmem hpre
        · split at hrs
          · exact ih (i + 1) pids rs hrs j' y hy' hex rep hrep hpre
          · cases hg : go x (path ++ [Step.idx i]) (addId pids x) with
            | none => rw [hg] at hrs; exact absurd hrs (by simp)
            | some rs1 =>
              rw [hg] at hrs
              cases hrst : searchIterGo cfg h item go path rest (i + 1) pids with
              | none => rw [hrst] at hrs; exact absurd hrs (by simp)
              | some rest0 =>
                rw [hrst] at hrs
                simp only [Option.some.injEq] at hrs
                subst hrs
                rcases List.mem_append.1 hrep with h1 | hmem
                · have := (hgo _ _ _ _ hg rep h1).1
                  have : (i + 1) + j' = i := idx_eq_of_prefixes hpre this
                  omega
                · exact ih (i + 1) pids rest0 hrst j' y hy' hex rep hmem hpre

/-- The elements an iterable node feeds into `__search_iterable` when
    the dispatcher reaches it: a list, a set/frozenset, or a tuple that
    does not expose `_asdict`. -/
def iterElems : Option PyNode → Option (List Nat)
  | some (.list xs) => some xs
  | some (.set xs) => some xs
  | some (.tuple xs none) => some xs
  | _ => none

/-- An iterable element of excluded type is invisible: no report of the
    dispatch lies at its position or anywhere below it. -/
theorem searchF_excluded_iter_elem (cfg : Cfg) (h : Heap) (item : Nat) :
    ∀ fuel r path pids rs elems j x,
      searchF cfg h item fuel r path pids = some rs →
      iterElems (List.lookup r h) = some elems →
      elems.get? j = some x →
      isExcludedType cfg h x = true →
      ∀ rep ∈ rs, ¬ ((path ++ [Step.idx j]) <+: rep.pathOf) := by
  intro fuel
  cases fuel with
  | zero => intro r path pids rs elems j x hrs; exact absurd hrs (by simp [searchF])
  | succ fuel =>
    intro r path pids rs elems j x hrs hie hget hex rep hrep
    simp only [searchF] at hrs
    split at hrs
    · simp only [Option.some.injEq] at hrs
      subst hrs
      simp at hrep
    · cases hlk : List.lookup r h with
      | none => rw [hlk] at hie; simp [iterElems] at hie
      | some node =>
        rw [hlk] at hrs hie
        cases node with
        | str s => simp [iterElems] at hie
        | num n => simp [iterElems] at hie
        | dict entries => simp [iterElems] at hie
        | obj dct slots => simp [iterElems] at hie
        | list elems' =>
          simp only [iterElems, Option.some.injEq] at hie
          subst hie
          have := searchIterGo_excluded_elem
            (searchF_repIn cfg h item fuel) elems' 0 pids rs hrs j x hget hex rep hrep
          rwa [Nat.zero_add] at this
        | tuple elems' asdict =>
          cases asdict with
          | some fields => simp [iterElems] at hie
          | none =>
            simp only [iterElems, Option.some.injEq] at hie
            subst hie
            have := searchIterGo_excluded_elem
              (searchF_repIn cfg h item fuel) elems' 0 pids rs hrs j x hget hex rep hrep
            rwa [Nat.zero_add] at this
        | set elems' =>
          simp only [iterElems, Option.some.injEq] at hie
          subst hie
          replace hrs :
              (match searchIterGo cfg h item (searchF cfg h item fuel)
                  path elems' 0 pids with
                | none => none
                | some rs1 => some (Report.warnSet path :: rs1)) = some rs := hrs
          cases hit : searchIterGo cfg h item (searchF cfg h item fuel)
              path elems' 0 pids with
          | none => rw [hit] at hrs; exact absurd hrs (by simp)
          | some rs1 =>
            rw [hit] at hrs
            simp only [Option.some.injEq] at hrs
            subst hrs
            rcases List.mem_cons.1 hrep with hh | hmem
            · subst hh
              exact not_snoc_prefix_self
            · have := searchIterGo_excluded_elem
                (searchF_repIn cfg h item fuel) elems' 0 pids rs1 hit j x hget hex rep hmem
              rwa [Nat.zero_add] at this

theorem assocSet_ne_nil (l : List (String × Nat)) (k : String) (v : Nat) :
    assocSet l k v ≠ [] := by
  cases l with
  | nil => simp [assocSet]
  | cons pr rest =>
    obtain ⟨k', v'⟩ := pr
    unfold assocSet
    split <;> simp

theorem assocSet_mem {l : List (String × Nat)} {k : String} {v : Nat}
    {e : String × Nat} (he : e ∈ assocSet l k v) : e ∈ l ∨ e = (k, v) := by
  induction l with
  | nil => simp only [assocSet, List.mem_singleton] at he; exact Or.inr he
  | cons pr rest ih =>
    obtain ⟨k', v'⟩ := pr
    unfold assocSet at he
    split at he
    · rcases List.mem_cons.1 he with hh | hm
      · exact Or.inr hh
      · exact Or.inl (List.mem_cons_of_mem _ hm)
    · rcases List.mem_cons.1 he with hh | hm
      · exact Or.inl (hh ▸ List.mem_cons_self _ _)
      · rcases ih hm with h1 | h2
        · exact Or.inl (List.mem_cons_of_mem _ h1)
        · exact Or.inr h2

theorem bucketAdd_not_empty (b : Bucket) (k : String) (v : Nat) :
    bucketEmpty (bucketAdd b k v) = false := by
  cases b with
  | paths ps =>
    show bucketEmpty (Bucket.paths (if k ∈ ps then ps else ps ++ [k])) = false
    by_cases hk : k ∈ ps
    · rw [if_pos hk]
      cases ps with
      | nil => simp at hk
      | cons a rest => rfl
    · rw [if_neg hk]
      show (ps ++ [k]).isEmpty = false
      simp
  | pathVals ps =>
    show (assocSet ps k v).isEmpty = false
    cases hs : assocSet ps k v with
    | nil => exact absurd hs (assocSet_ne_nil _ _ _)
    | cons a rest => rfl

theorem bucketAdd_paths {b : Bucket} {k : String} {v : Nat}
    (hb : ∃ ps, b = Bucket.paths ps) :
    ∃ ps, bucketAdd b k v = Bucket.paths ps := by
  obtain ⟨ps, hps⟩ := hb
  subst hps
  exact ⟨if k ∈ ps then ps else ps ++ [k], rfl⟩

theorem bucketAdd_pathVals {b : Bucket} {k : String} {v : Nat}
    (hb : ∃ ps, b = Bucket.pathVals ps) :
    ∃ ps, bucketAdd b k v = Bucket.pathVals ps := by
  obtain ⟨ps, hps⟩ := hb
  subst hps
  exact ⟨_, rfl⟩

theorem mpStep_paths {b : Bucket} {rep : Report}
    (hb : ∃ ps, b = Bucket.paths ps) :
    ∃ ps, mpStep b rep = Bucket.paths ps := by
  cases rep with
  | mpath p v => exact bucketAdd_paths hb
  | mval p v => exact hb
  | unproc p => exact hb
  | warnSet p => exact hb

theorem mvStep_paths {b : Bucket} {rep : Report}
    (hb : ∃ ps, b = Bucket.paths ps) :
    ∃ ps, mvStep b rep = Bucket.paths ps := by
  cases rep with
  | mpath p v => exact hb
  | mval p v => exact bucketAdd_paths hb
  | unproc p => exact hb
  | warnSet p => exact hb

theorem mpStep_pathVals {b : Bucket} {rep : Report}
    (hb : ∃ ps, b = Bucket.pathVals ps) :
    ∃ ps, mpStep b rep = Bucket.pathVals ps := by
  cases rep with
  | mpath p v => exact bucketAdd_pathVals hb
  | mval p v => exact hb
  | unproc p => exact hb
  | warnSet p => exact hb

theorem mvStep_pathVals {b : Bucket} {rep : Report}
    (hb : ∃ ps, b = Bucket.pathVals ps) :
    ∃ ps, mvStep b rep = Bucket.pathVals ps := by
  cases rep with
  | mpath p v => exact hb
  | mval p v => exact bucketAdd_pathVals hb
  | unproc p => exact hb
  | warnSet p => exact hb

theorem foldl_preserves {α : Type} (P : α → Prop) (step : α → Report → α)
    (hstep : ∀ b rep, P b → P (step b rep)) :
    ∀ (reports : List Report) (b : α), P b → P (List.foldl step b reports) := by
  intro reports
  induction reports with
  | nil => intro b hb; exact hb
  | cons rep rest ih => intro b hb; exact ih _ (hstep b rep hb)

/-- At `verbose_level < 2` both match buckets are sets of path strings. -/
theorem mpBucket_shape_set {verbose : Nat} (hv : verbose < 2)
    (reports : List Report) : ∃ ps, mpBucket verbose reports = Bucket.paths ps := by
  unfold mpBucket
  exact foldl_preserves (fun b => ∃ ps, b = Bucket.paths ps) mpStep
    (fun b rep hb => mpStep_paths hb) reports _
    ⟨[], by unfold bucketInit; rw [if_neg (by omega)]⟩

theorem mvBucket_shape_set {verbose : Nat} (hv : verbose < 2)
    (reports : List Report) : ∃ ps, mvBucket verbose reports = Bucket.paths ps := by
  unfold mvBucket
  exact foldl_preserves (fun b => ∃ ps, b = Bucket.paths ps) mvStep
    (fun b rep hb => mvStep_paths hb) reports _
    ⟨[], by unfold bucketInit; rw [if_neg (by omega)]⟩

/-- At `verbose_level >= 2` both match buckets are path-to-value maps. -/
theorem mpBucket_shape_map {verbose : Nat} (hv : 2 ≤ verbose)
    (reports : List Report) :
    ∃ ps, mpBucket verbose reports = Bucket.pathVals ps := by
  unfold mpBucket
  exact foldl_preserves (fun b => ∃ ps, b = Bucket.pathVals ps) mpStep
    (fun b rep hb => mpStep_pathVals hb) reports _
    ⟨[], by unfold bucketInit; rw [if_pos hv]⟩

theorem mvBucket_shape_map {verbose : Nat} (hv : 2 ≤ verbose)
    (reports : List Report) :
    ∃ ps, mvBucket verbose reports = Bucket.pathVals ps := by
  unfold mvBucket
  exact foldl_preserves (fun b => ∃ ps, b = Bucket.pathVals ps) mvStep
    (fun b rep hb => mvStep_pathVals hb) reports _
    ⟨[], by unfold bucketInit; rw [if_pos hv]⟩

theorem mpFold_mem :
    ∀ (reports : List Report) (b0 ps : List (String × Nat)),
      List.foldl mpStep (Bucket.pathVals b0) reports = Bucket.pathVals ps →
      ∀ e ∈ ps,
        e ∈ b0 ∨ ∃ p, Report.mpath p e.2 ∈ reports ∧ render p = e.1 := by
  intro reports
  induction reports with
  | nil =>
    intro b0 ps hps e he
    simp only [List.foldl_nil, Bucket.pathVals.injEq] at hps
    subst hps
    exact Or.inl he
  | cons rep rest ih =>
    intro b0 ps hps e he
    cases rep with
    | mpath p v =>
      have hstep : mpStep (Bucket.pathVals b0) (Report.mpath p v) =
          Bucket.pathVals (assocSet b0 (render p) v) := rfl
      rw [List.foldl_cons, hstep] at hps
      rcases ih _ _ hps e he with h1 | ⟨q, hq1, hq2⟩
      · rcases assocSet_mem h1 with h2 | h2
        · exact Or.inl h2
        · subst h2
          exact Or.inr ⟨p, List.mem_cons_self _ _, rfl⟩
      · exact Or.inr ⟨q, List.mem_cons_of_mem _ hq1, hq2⟩
    | mval p v =>
      rw [List.foldl_cons] at hps
      rcases ih _ _ hps e he with h1 | ⟨q, hq1, hq2⟩
      · exact Or.inl h1
      · exact Or.inr ⟨q, List.mem_cons_of_mem _ hq1, hq2⟩
    | unproc p =>
      rw [List.foldl_cons] at hps
      rcases ih _ _ hps e he with h1 | ⟨q, hq1, hq2⟩
      · exact Or.inl h1
      · exact Or.inr ⟨q, List.mem_cons_of_mem _ hq1, hq2⟩
    | warnSet p =>
      rw [List.foldl_cons] at hps
      rcases ih _ _ hps e he with h1 | ⟨q, hq1, hq2⟩
      · exact Or.inl h1
      · exact Or.inr ⟨q, List.mem_cons_of_mem _ hq1, hq2⟩

theorem mvFold_mem :
    ∀ (reports : List Report) (b0 ps : List (String × Nat)),
      List.foldl mvStep (Bucket.pathVals b0) reports = Bucket.pathVals ps →
      ∀ e ∈ ps,
        e ∈ b0 ∨ ∃ p, Report.mval p e.2 ∈ reports ∧ render p = e.1 := by
  intro reports
  induction reports with
  | nil =>
    intro b0 ps hps e he
    simp only [List.foldl_nil, Bucket.pathVals.injEq] at hps
    subst hps
    exact Or.inl he
  | cons rep rest ih =>
    intro b0 ps hps e he
    cases rep with
    | mval p v =>
      have hstep : mvStep (Bucket.pathVals b0) (Report.mval p v) =
          Bucket.pathVals (assocSet b0 (render p) v) := rfl
      rw [List.foldl_cons, hstep] at hps
      rcases ih _ _ hps e he with h1 | ⟨q, hq1, hq2⟩
      · rcases assocSet_mem h1 with h2 | h2
        · exact Or.inl h2
        · subst h2
          exact Or.inr ⟨p, List.mem_cons_self _ _, rfl⟩
      · exact Or.inr ⟨q, List.mem_cons_of_mem _ hq1, hq2⟩
    | mpath p v =>
      rw [List.foldl_cons] at hps
      rcases ih _ _ hps e he with h1 | ⟨q, hq1, hq2⟩
      · exact Or.inl h1
      · exact Or.inr ⟨q, List.mem_cons_of_mem _ hq1, hq2⟩
    | unproc p =>
      rw [List.foldl_cons] at hps
      rcases ih _ _ hps e he with h1 | ⟨q, hq1, hq2⟩
      · exact Or.inl h1
      · exact Or.inr ⟨q, List.mem_cons_of_mem _ hq1, hq2⟩
    | warnSet p =>
      rw [List.foldl_cons] at hps
      rcases ih _ _ hps e he with h1 | ⟨q, hq1, hq2⟩
      · exact Or.inl h1
      · exact Or.inr ⟨q, List.mem_cons_of_mem _ hq1, hq2⟩

theorem mpStep_nonempty {b : Bucket} {rep : Report}
    (hb : bucketEmpty b = false) : bucketEmpty (mpStep b rep) = false := by
  cases rep with
  | mpath p v => exact bucketAdd_not_empty b _ _
  | mval p v => exact hb
  | unproc p => exact hb
  | warnSet p => exact hb

theorem mvStep_nonempty {b : Bucket} {rep : Report}
    (hb : bucketEmpty b = false) : bucketEmpty (mvStep b rep) = false := by
  cases rep with
  | mpath p v => exact hb
  | mval p v => exact bucketAdd_not_empty b _ _
  | unproc p => exact hb
  | warnSet p => exact hb

theorem foldl_mpStep_no_reports :
    ∀ (reports : List Report) (b : Bucket),
      (∀ p v, Report.mpath p v ∉ reports) →
      List.foldl mpStep b reports = b := by
  intro reports
  induction reports with
  | nil => intro b _; rfl
  | cons rep rest ih =>
    intro b hno
    cases rep with
    | mpath p v => exact absurd (List.mem_cons_self _ _) (hno p v)
    | mval p v => exact ih b (fun p v hm => hno p v (List.mem_cons_of_mem _ hm))
    | unproc p => exact ih b (fun p v hm => hno p v (List.mem_cons_of_mem _ hm))
    | warnSet p => exact ih b (fun p v hm => hno p v (List.mem_cons_of_mem _ hm))

theorem foldl_mvStep_no_reports :
    ∀ (reports : List Report) (b : Bucket),
      (∀ p v, Report.mval p v ∉ reports) →
      List.foldl mvStep b reports = b := by
  intro reports
  induction reports with
  | nil => intro b _; rfl
  | cons rep rest ih =>
    intro b hno
    cases rep with
    | mval p v => exact absurd (List.mem_cons_self _ _) (hno p v)
    | mpath p v => exact ih b (fun p v hm => hno p v (List.mem_cons_of_mem _ hm))
    | unproc p => exact ih b (fun p v hm => hno p v (List.mem_cons_of_mem _ hm))
    | warnSet p => exact ih b (fun p v hm => hno p v (List.mem_cons_of_mem _ hm))

theorem foldl_mpStep_nonempty :
    ∀ (reports : List Report) (b : Bucket),
      ((∃ p v, Report.mpath p v ∈ reports) ∨ bucketEmpty b = false) →
      bucketEmpty (List.foldl mpStep b reports) = false := by
  intro reports
  induction reports with
  | nil =>
    intro b hyp
    rcases hyp with ⟨p, v, hm⟩ | hb
    · simp at hm
    · exact hb
  | cons rep rest ih =>
    intro b hyp
    rcases hyp with ⟨p, v, hm⟩ | hb
    · rcases List.mem_cons.1 hm with hh | hm'
      · subst hh
        exact ih _ (Or.inr (bucketAdd_not_empty b _ _))
      · exact ih _ (Or.inl ⟨p, v, hm'⟩)
    · exact ih _ (Or.inr (mpStep_nonempty hb))

theorem foldl_mvStep_nonempty :
    ∀ (reports : List Report) (b : Bucket),
      ((∃ p v, Report.mval p v ∈ reports) ∨ bucketEmpty b = false) →
      bucketEmpty (List.foldl mvStep b reports) = false := by
  intro reports
  induction reports with
  | nil =>
    intro b hyp
    rcases hyp with ⟨p, v, hm⟩ | hb
    · simp at hm
    · exact hb
  | cons rep rest ih =>
    intro b hyp
    rcases hyp with ⟨p, v, hm⟩ | hb
    · rcases List.mem_cons.1 hm with hh | hm'
      · subst hh
        exact ih _ (Or.inr (bucketAdd_not_empty b _ _))
      · exact ih _ (Or.inl ⟨p, v, hm'⟩)
    · exact ih _ (Or.inr (mvStep_nonempty hb))

theorem bucketEmpty_bucketInit (verbose : Nat) :
    bucketEmpty (bucketInit verbose) = true := by
  unfold bucketInit
  split <;> rfl

/-- The `matched_paths` bucket is empty exactly when no `matched_paths`
    report was produced. -/
theorem mpBucket_empty_iff (verbose : Nat) (reports : List Report) :
    bucketEmpty (mpBucket verbose reports) = true ↔
      ∀ p v, Report.mpath p v ∉ reports := by
  constructor
  · intro hemp p v hmem
    have hne := foldl_mpStep_nonempty reports (bucketInit verbose)
      (Or.inl ⟨p, v, hmem⟩)
    unfold mpBucket at hemp
    rw [hne] at hemp
    cases hemp
  · intro hno
    unfold mpBucket
    rw [foldl_mpStep_no_reports reports _ hno]
    exact bucketEmpty_bucketInit verbose

theorem mvBucket_empty_iff (verbose : Nat) (reports : List Report) :
    bucketEmpty (mvBucket verbose reports) = true ↔
      ∀ p v, Report.mval p v ∉ reports := by
  constructor
  · intro hemp p v hmem
    have hne := foldl_mvStep_nonempty reports (bucketInit verbose)
      (Or.inl ⟨p, v, hmem⟩)
    unfold mvBucket at hemp
    rw [hne] at hemp
    cases hemp
  · intro hno
    unfold mvBucket
    rw [foldl_mvStep_no_reports reports _ hno]
    exact bucketEmpty_bucketInit verbose

theorem foldl_unprocStep_no_reports :
    ∀ (reports : List Report) (l : List String),
      (∀ p, Report.unproc p ∉ reports) →
      List.foldl unprocStep l reports = l := by
  intro reports
  induction reports with
  | nil => intro l _; rfl
  | cons rep rest ih =>
    intro l hno
    cases rep with
    | unproc p => exact absurd (List.mem_cons_self _ _) (hno p)
    | mpath p v => exact ih l (fun p hm => hno p (List.mem_cons_of_mem _ hm))
    | mval p v => exact ih l (fun p hm => hno p (List.mem_cons_of_mem _ hm))
    | warnSet p => exact ih l (fun p hm => hno p (List.mem_cons_of_mem _ hm))

theorem foldl_unprocStep_nonempty :
    ∀ (reports : List Report) (l : List String),
      ((∃ p, Report.unproc p ∈ reports) ∨ l ≠ []) →
      List.foldl unprocStep l reports ≠ [] := by
  intro reports
  induction reports with
  | nil =>
    intro l hyp
    rcases hyp with ⟨p, hm⟩ | hl
    · simp at hm
    · exact hl
  | cons rep rest ih =>
    intro l hyp
    have hpres : ∀ (l' : List String) (rep' : Report), l' ≠ [] →
        unprocStep l' rep' ≠ [] := by
      intro l' rep' hl'
      cases rep' with
      | unproc p => simp [unprocStep]
      | mpath p v => exact hl'
      | mval p v => exact hl'
      | warnSet p => exact hl'
    rcases hyp with ⟨p, hm⟩ | hl
    · rcases List.mem_cons.1 hm with hh | hm'
      · subst hh
        exact ih _ (Or.inr (by simp [unprocStep]))
      · exact ih _ (Or.inl ⟨p, hm'⟩)
    · exact ih _ (Or.inr (hpres l rep hl))

theorem unprocList_empty_iff (reports : List Report) :
    unprocList reports = [] ↔ ∀ p, Report.unproc p ∉ reports := by
  constructor
  · intro hemp p hmem
    exact foldl_unprocStep_nonempty reports [] (Or.inl ⟨p, hmem⟩) hemp
  · intro hno
    unfold unprocList
    exact foldl_unprocStep_no_reports reports [] hno

/-- The advisory counter of one instance never exceeds 10 — at most 10
    advisories are logged per `DeepSearch` instance. -/
theorem warnFold_le_ten (reports : List Report) : warnFold reports ≤ 10 := by
  unfold warnFold
  refine foldl_preserves (fun w => w ≤ 10) warnStep ?_ reports 0 (by omega)
  intro w rep hw
  cases rep with
  | warnSet p =>
    show (if w < 10 then w + 1 else w) ≤ 10
    by_cases hw10 : w < 10
    · rw [if_pos hw10]; omega
    · rw [if_neg hw10]; exact hw
  | mpath p v => exact hw
  | mval p v => exact hw
  | unproc p => exact hw

theorem infix_append_right {α : Type} {x y : List α} (z : List α)
    (hx : x <:+: y) : x <:+: y ++ z := by
  obtain ⟨s, t, hst⟩ := hx
  exact ⟨s, t ++ z, by rw [← hst]; simp⟩

theorem infix_append_left {α : Type} (y : List α) {x z : List α}
    (hx : x <:+: z) : x <:+: y ++ z := by
  obtain ⟨s, t, hst⟩ := hx
  exact ⟨y ++ s, t, by rw [← hst]; simp⟩

theorem mem_infix_joinComma :
    ∀ (ks : List String) (k : String), k ∈ ks →
      k.data <:+: (joinComma ks).data := by
  intro ks
  induction ks with
  | nil => intro k hk; simp at hk
  | cons a rest ih =>
    intro k hk
    cases rest with
    | nil =>
      rw [List.mem_singleton] at hk
      subst hk
      exact List.infix_refl _
    | cons b rest' =>
      rcases List.mem_cons.1 hk with hh | hmem
      · subst hh
        show k.data <:+: ((k ++ ", ") ++ joinComma (b :: rest')).data
        rw [String.data_append, String.data_append]
        apply infix_append_right
        apply infix_append_right
        exact List.infix_refl _
      · show k.data <:+: ((a ++ ", ") ++ joinComma (b :: rest')).data
        rw [String.data_append]
        exact infix_append_left _ (ih k hmem)

/-- The `ValueError` message mentions every invalid keyword. -/
theorem kwargsMessage_contains {ks : List String} {k : String} (hk : k ∈ ks) :
    strContains (kwargsMessage ks) k = true := by
  unfold strContains kwargsMessage
  rw [decide_eq_true_eq]
  rw [String.data_append, String.data_append]
  exact infix_append_right _ (infix_append_left _ (mem_infix_joinComma ks k hk))

/-- Dispatching a set/frozenset node records the advisory event and then
    runs the sequence visitor on the set's elements. -/
theorem searchF_set_dispatch (cfg : Cfg) (h : Heap) (item fuel r : Nat)
    (path : List Step) (pids : List Nat) (elems : List Nat)
    (hlk : List.lookup r h = some (PyNode.set elems))
    (hskip : skipThis cfg h item (render path) = false) :
    searchF cfg h item (fuel + 1) r path pids =
      (searchIterGo cfg h item (searchF cfg h item fuel) path elems 0 pids).map
        (fun rs => Report.warnSet path :: rs) := by
  simp only [searchF, hskip, hlk]
  cases searchIterGo cfg h item (searchF cfg h item fuel) path elems 0 pids <;> rfl

/-- Dispatching an object with neither `_asdict` nor `__dict__` nor
    `__slots__` appends its path to `unprocessed` and returns. -/
theorem searchF_opaque (cfg : Cfg) (h : Heap) (item fuel r : Nat)
    (path : List Step) (pids : List Nat)
    (hlk : List.lookup r h = some (PyNode.obj none none))
    (hskip : skipThis cfg h item (render path) = false) :
    searchF cfg h item (fuel + 1) r path pids = some [Report.unproc path] := by
  simp only [searchF, hskip, hlk]
  rfl

/-- A string node with a number-like search item returns immediately with
    no report. -/
theorem searchF_str_num (cfg : Cfg) (h : Heap) (item fuel r : Nat)
    (path : List Step) (pids : List Nat) (s : String) (n : Int)
    (hlkr : List.lookup r h = some (PyNode.str s))
    (hlki : List.lookup item h = some (PyNode.num n)) :
    searchF cfg h item (fuel + 1) r path pids = some [] := by
  simp only [searchF, hlkr, hlki]
  split <;> rfl

/-- When the search item's own type is excluded, every dispatch returns
    immediately. -/
theorem searchF_item_excluded (cfg : Cfg) (h : Heap) (item fuel r : Nat)
    (path : List Step) (pids : List Nat)
    (hex : isExcludedType cfg h item = true) :
    searchF cfg h item (fuel + 1) r path pids = some [] := by
  simp only [searchF]
  rw [if_pos (skipThis_of_type _ hex)]

theorem finalize_nil (verbose : Nat) :
    finalize verbose [] =
      { matched_paths := none, matched_values := none, unprocessed := none } := by
  unfold finalize mpBucket mvBucket unprocList
  simp [bucketEmpty_bucketInit]

/-! Concrete object graphs used by witnesses and counterexamples. -/

def cfgPlain : Cfg := ⟨[], [], 1⟩
def cfgV2 : Cfg := ⟨[], [], 2⟩
def cfgNumExcl : Cfg := ⟨[], [PyType.num], 1⟩
def cfgStrExcl : Cfg := ⟨[], [PyType.str], 1⟩
def cfgPathExcl : Cfg := ⟨[render [Step.key (PyKey.str "a")]], [], 1⟩

/-- `{"a": 5}` searched for `"a"` (item id 2). -/
def hDictA : Heap := [(0, .dict [(.str "a", 1)]), (1, .num 5), (2, .str "a")]
/-- A list containing itself. -/
def hSelfRef : Heap := [(0, .list [0])]
/-- A list containing itself, plus an unrelated string item. -/
def hSelfRefQ : Heap := [(0, .list [0]), (1, .str "q")]
/-- The same sub-list appearing under both indices of the root list. -/
def hSibling : Heap := [(0, .list [1, 1]), (1, .list [2]), (2, .str "q")]
/-- A list of six empty sets, plus an unrelated string item. -/
def hSixSets : Heap :=
  [(0, .list [1, 2, 3, 4, 5, 6]), (1, .set []), (2, .set []), (3, .set []),
   (4, .set []), (5, .set []), (6, .set []), (7, .str "q")]
/-- An introspection-opaque object followed by a matching string. -/
def hOpaqueList : Heap :=
  [(0, .list [1, 2]), (1, .obj none none), (2, .str "hello"), (3, .str "hell")]
/-- An introspection-opaque object at the root. -/
def hOpaqueRoot : Heap := [(0, .obj none none), (1, .str "q")]
/-- `[5]` with string item `"a"` and `int` excluded. -/
def hNumElem : Heap := [(0, .list [1]), (1, .num 5), (2, .str "a")]
/-- A string root with a numeric item. -/
def hStrRoot : Heap := [(0, .str "abc"), (1, .num 3)]
/-- `[7]` with a string item whose own type is excluded. -/
def hAny : Heap := [(0, .list [1]), (1, .num 7), (2, .str "x")]
/-- The nested docstring example:
    `["something somewhere", {"long": "somewhere", "string": 2, 0: 0,
    "somewhere": "around"}]`, item `"somewhere"` (id 7). -/
def hNested : Heap :=
  [(0, .list [1, 2]), (1, .str "something somewhere"),
   (2, .dict [(.str "long", 3), (.str "string", 4), (.int 0, 5), (.str "somewhere", 6)]),
   (3, .str "somewhere"), (4, .num 2), (5, .num 0), (6, .str "around"),
   (7, .str "somewhere")]

/-- C9: when the dispatched node is string-like and the search item is
    number-like, `__search` returns immediately: no report is recorded
    and nothing is recursed into. -/
theorem c9_theorem (cfg : Cfg) (h : Heap) (item fuel r : Nat)
    (path : List Step) (pids : List Nat) (s : String) (n : Int)
    (hlkr : List.lookup r h = some (PyNode.str s))
    (hlki : List.lookup item h = some (PyNode.num n)) :
    searchF cfg h item (fuel + 1) r path pids = some [] :=
  searchF_str_num cfg h item fuel r path pids s n hlkr hlki

/-- C9 witness: searching the string `"abc"` for the number `3` yields no
    report at all. -/
theorem c9_witness : searchF cfgPlain hStrRoot 1 5 0 [] [0] = some [] :=
  c9_theorem cfgPlain hStrRoot 1 4 0 [] [0] "abc" 3 rfl rfl

/-- C10: when the search item's own runtime type is in `exclude_types`,
    the very first dispatch returns immediately and the final result
    mapping is completely empty, whatever the root contains. -/
theorem c10_theorem (cfg : Cfg) (h : Heap) (root item fuel : Nat)
    (hex : isExcludedType cfg h item = true) :
    searchF cfg h item (fuel + 1) root [] [root] = some [] ∧
    deepSearchRun cfg h root item (fuel + 1) =
      some { matched_paths := none, matched_values := none, unprocessed := none } := by
  have hsf := searchF_item_excluded cfg h item fuel root [] [root] hex
  refine ⟨hsf, ?_⟩
  unfold deepSearchRun
  rw [hsf]
  simp only [Option.map_some']
  rw [finalize_nil]

/-- C10 witness: with `str` excluded and a string item, searching `[7]`
    returns the empty mapping. -/
theorem c10_witness :
    searchF cfgStrExcl hAny 2 5 0 [] [0] = some [] ∧
    deepSearchRun cfgStrExcl hAny 0 2 5 =
      some { matched_paths := none, matched_values := none, unprocessed := none } :=
  c10_theorem cfgStrExcl hAny 0 2 4 (by decide)

/-- C8: a generic object exposing neither `_asdict` nor `__dict__` nor
    `__slots__` is recorded in `unprocessed` and the dispatcher returns
    without raising; the rest of the graph is still traversed (second
    part: a sibling string is matched after the opaque node). -/
theorem c8_theorem :
    (∀ (cfg : Cfg) (h : Heap) (item fuel r : Nat) (path : List Step)
      (pids : List Nat),
      List.lookup r h = some (PyNode.obj none none) →
      skipThis cfg h item (render path) = false →
      searchF cfg h item (fuel + 1) r path pids = some [Report.unproc path]) ∧
    searchF cfgPlain hOpaqueList 3 5 0 [] [0] =
      some [Report.unproc [Step.idx 0], Report.mval [Step.idx 1] 2] := by
  constructor
  · intro cfg h item fuel r path pids hlk hskip
    exact searchF_opaque cfg h item fuel r path pids hlk hskip
  · decide

/-- C8 witness: dispatching on an opaque root object records exactly its
    path in `unprocessed`. -/
theorem c8_witness :
    searchF cfgPlain hOpaqueRoot 1 3 0 [] [0] = some [Report.unproc []] :=
  c8_theorem.1 cfgPlain hOpaqueRoot 1 2 0 [] [0] rfl (by decide)

/-- C6: constructing the engine with any unrecognized keyword arguments
    raises the configuration `ValueError` whose message names every
    offending key, before any search runs; with none, construction
    succeeds. -/
theorem c6_theorem (kwargs : List String) (cfg : Cfg) (h : Heap)
    (root item fuel : Nat) :
    (kwargs ≠ [] →
      deepSearchInit kwargs cfg h root item fuel =
        Except.error (kwargsMessage kwargs) ∧
      ∀ k ∈ kwargs, strContains (kwargsMessage kwargs) k = true) ∧
    (kwargs = [] →
      deepSearchInit kwargs cfg h root item fuel =
        Except.ok (deepSearchRun cfg h root item fuel)) := by
  constructor
  · intro hne
    cases kwargs with
    | nil => exact absurd rfl hne
    | cons k rest =>
      exact ⟨rfl, fun k' hk' => kwargsMessage_contains hk'⟩
  · intro he
    subst he
    rfl

/-- An unrecognized keyword argument list. -/
def badKw : List String := ["exclude_type"]

/-- C6 witness: the unknown keyword `"exclude_type"` is rejected with a
    message that contains it, and a call without extra keywords does not
    raise. -/
theorem c6_witness :
    (deepSearchInit badKw cfgPlain hDictA 0 2 5 =
      Except.error (kwargsMessage badKw) ∧
      ∀ k ∈ badKw, strContains (kwargsMessage badKw) k = true) ∧
    deepSearchInit [] cfgPlain hDictA 0 2 5 =
      Except.ok (deepSearchRun cfgPlain hDictA 0 2 5) :=
  ⟨(c6_theorem badKw cfgPlain hDictA 0 2 5).1 (by simp [badKw]),
   (c6_theorem [] cfgPlain hDictA 0 2 5).2 rfl⟩

/-- C5: the final mapping never holds an empty bucket: a key is present
    exactly when its bucket is non-empty, i.e. when a report of its kind
    was produced during the traversal. -/
theorem c5_theorem (cfg : Cfg) (h : Heap) (root item fuel : Nat)
    (out : DeepSearchOut) (rs : List Report)
    (hsf : searchF cfg h item fuel root [] [root] = some rs)
    (hrun : deepSearchRun cfg h root item fuel = some out) :
    ((∀ b, out.matched_paths = some b → bucketEmpty b = false) ∧
      (out.matched_paths = none ↔ ∀ p v, Report.mpath p v ∉ rs)) ∧
    ((∀ b, out.matched_values = some b → bucketEmpty b = false) ∧
      (out.matched_values = none ↔ ∀ p v, Report.mval p v ∉ rs)) ∧
    ((∀ l, out.unprocessed = some l → l ≠ []) ∧
      (out.unprocessed = none ↔ ∀ p, Report.unproc p ∉ rs)) := by
  unfold deepSearchRun at hrun
  rw [hsf] at hrun
  simp only [Option.map_some', Option.some.injEq] at hrun
  subst hrun
  set v := cfg.verbose_level with hv
  have hmp : (finalize v rs).matched_paths =
      if bucketEmpty (mpBucket v rs) = true then none else some (mpBucket v rs) := rfl
  have hmv : (finalize v rs).matched_values =
      if bucketEmpty (mvBucket v rs) = true then none else some (mvBucket v rs) := rfl
  have hun : (finalize v rs).unprocessed =
      if (unprocList rs).isEmpty = true then none else some (unprocList rs) := rfl
  refine ⟨⟨?_, ?_⟩, ⟨?_, ?_⟩, ⟨?_, ?_⟩⟩
  · intro b hb
    rw [hmp] at hb
    by_cases hemp : bucketEmpty (mpBucket v rs) = true
    · rw [if_pos hemp] at hb; cases hb
    · rw [if_neg hemp] at hb
      simp only [Option.some.injEq] at hb
      subst hb
      exact Bool.not_eq_true _ ▸ (Bool.eq_false_iff.mpr hemp)
  · rw [hmp]
    by_cases hemp : bucketEmpty (mpBucket v rs) = true
    · rw [if_pos hemp]
      simp only [true_iff]
      exact (mpBucket_empty_iff v rs).mp hemp
    · rw [if_neg hemp]
      constructor
      · intro hcon; cases hcon
      · intro hno
        exact absurd ((mpBucket_empty_iff v rs).mpr hno) hemp
  · intro b hb
    rw [hmv] at hb
    by_cases hemp : bucketEmpty (mvBucket v rs) = true
    · rw [if_pos hemp] at hb; cases hb
    · rw [if_neg hemp] at hb
      simp only [Option.some.injEq] at hb
      subst hb
      exact Bool.not_eq_true _ ▸ (Bool.eq_false_iff.mpr hemp)
  · rw [hmv]
    by_cases hemp : bucketEmpty (mvBucket v rs) = true
    · rw [if_pos hemp]
      simp only [true_iff]
      exact (mvBucket_empty_iff v rs).mp hemp
    · rw [if_neg hemp]
      constructor
      · intro hcon; cases hcon
      · intro hno
        exact absurd ((mvBucket_empty_iff v rs).mpr hno) hemp
  · intro l hl
    rw [hun] at hl
    by_cases hemp : (unprocList rs).isEmpty = true
    · rw [if_pos hemp] at hl; cases hl
    · rw [if_neg hemp] at hl
      simp only [Option.some.injEq] at hl
      subst hl
      intro hnil
      exact hemp (by rw [hnil]; rfl)
  · rw [hun]
    by_cases hemp : (unprocList rs).isEmpty = true
    · rw [if_pos hemp]
      simp only [true_iff]
      exact (unprocList_empty_iff rs).mp (List.isEmpty_iff.mp hemp)
    · rw [if_neg hemp]
      constructor
      · intro hcon; cases hcon
      · intro hno
        exact absurd (show (unprocList rs).isEmpty = true by
          rw [(unprocList_empty_iff rs).mpr hno]; rfl) hemp

/-- C5 witness: for the `{"a": 5}` search, only `matched_paths` is
    present and its bucket is non-empty; the other keys are absent
    because no report of their kind exists. -/
theorem c5_witness :
    ((∀ b, (DeepSearchOut.mk (some (Bucket.paths [render [Step.key (PyKey.str "a")]]))
        none none).matched_paths = some b → bucketEmpty b = false) ∧
      ((DeepSearchOut.mk (some (Bucket.paths [render [Step.key (PyKey.str "a")]]))
        none none).matched_paths = none ↔
        ∀ p v, Report.mpath p v ∉ [Report.mpath [Step.key (PyKey.str "a")] 1])) ∧
    ((∀ b, (DeepSearchOut.mk (some (Bucket.paths [render [Step.key (PyKey.str "a")]]))
        none none).matched_values = some b → bucketEmpty b = false) ∧
      ((DeepSearchOut.mk (some (Bucket.paths [render [Step.key (PyKey.str "a")]]))
        none none).matched_values = none ↔
        ∀ p v, Report.mval p v ∉ [Report.mpath [Step.key (PyKey.str "a")] 1])) ∧
    ((∀ l, (DeepSearchOut.mk (some (Bucket.paths [render [Step.key (PyKey.str "a")]]))
        none none).unprocessed = some l → l ≠ []) ∧
      ((DeepSearchOut.mk (some (Bucket.paths [render [Step.key (PyKey.str "a")]]))
        none none).unprocessed = none ↔
        ∀ p, Report.unproc p ∉ [Report.mpath [Step.key (PyKey.str "a")] 1])) :=
  c5_theorem cfgPlain hDictA 0 2 5 _ _ (by decide) (by decide)

/-- The advisory reports of the six-set search. -/
def rsSixSets : List Report :=
  [.warnSet [.idx 0], .warnSet [.idx 1], .warnSet [.idx 2],
   .warnSet [.idx 3], .warnSet [.idx 4], .warnSet [.idx 5]]

/-- C7 counterexample: the advisory cap is per instance, not per
    process.  Each of two engine instances searching a list of six sets
    logs six advisories (its own counter starts at the never-mutated
    class value 0), so the process-wide total is 12 > 10, contradicting
    the claimed process-lifetime cap of 10. -/
theorem c7_counterexample :
    searchF cfgPlain hSixSets 7 3 0 [] [0] = some rsSixSets ∧
    warnFold rsSixSets = 6 ∧
    processWarnEmissions [rsSixSets, rsSixSets] = 12 ∧
    10 < processWarnEmissions [rsSixSets, rsSixSets] := by
  decide

/-- C7 (amended): each `DeepSearch` instance logs the unordered-collection
    advisory at most 10 times (its counter is an instance attribute
    initialised from the class value 0), the advisory is never fatal, and
    the set is still traversed by the sequence visitor after the advisory
    event. -/
theorem c7_theorem :
    (∀ (cfg : Cfg) (h : Heap) (item fuel r : Nat) (path : List Step)
      (pids : List Nat) (rs : List Report),
      searchF cfg h item fuel r path pids = some rs → warnFold rs ≤ 10) ∧
    (∀ (cfg : Cfg) (h : Heap) (item fuel r : Nat) (path : List Step)
      (pids : List Nat) (elems : List Nat),
      List.lookup r h = some (PyNode.set elems) →
      skipThis cfg h item (render path) = false →
      searchF cfg h item (fuel + 1) r path pids =
        (searchIterGo cfg h item (searchF cfg h item fuel) path elems 0 pids).map
          (fun rs => Report.warnSet path :: rs)) :=
  ⟨fun _ _ _ _ _ _ _ rs _ => warnFold_le_ten rs,
   fun cfg h item fuel r path pids elems hlk hskip =>
     searchF_set_dispatch cfg h item fuel r path pids elems hlk hskip⟩

/-- C7 witness: the six-set instance logs 6 ≤ 10 advisories, and a set
    dispatch is the advisory event followed by the sequence visitor. -/
theorem c7_witness :
    warnFold rsSixSets ≤ 10 ∧
    searchF cfgPlain hSixSets 7 3 1 [Step.idx 0] [0, 1] =
      (searchIterGo cfgPlain hSixSets 7 (searchF cfgPlain hSixSets 7 2)
        [Step.idx 0] [] 0 [0, 1]).map
        (fun rs => Report.warnSet [Step.idx 0] :: rs) :=
  ⟨c7_theorem.1 cfgPlain hSixSets 7 3 0 [] [0] rsSixSets (by decide),
   c7_theorem.2 cfgPlain hSixSets 7 2 1 [Step.idx 0] [0, 1] [] rfl (by decide)⟩

/-- C3 counterexample: a list that contains itself, searched for itself:
    the equality test of the iterable visitor precedes the ancestry
    check, so the cyclic edge is reported in `matched_values` at
    `root[0]`, contradicting the claim that the cyclic edge produces no
    entry in any bucket. -/
theorem c3_counterexample :
    List.lookup 0 hSelfRef = some (PyNode.list [0]) ∧
    deepSearchRun cfgPlain hSelfRef 0 0 5 =
      some { matched_paths := none,
             matched_values := some (Bucket.paths [render [Step.idx 0]]),
             unprocessed := none } := by
  decide

/-- C3 (amended): the traversal terminates on every finite object graph,
    cyclic ones included — fuel exceeding the number of unvisited heap
    ids suffices; a self-referential list searched for an unrelated item
    produces no report at all for the cyclic edge; and a container
    re-encountered only via a sibling branch is still traversed (the
    ancestry set is per branch).  The only exception to the cyclic edge
    being invisible is an element equal to the search item, which the
    iterable visitor reports before its ancestry check (see the
    counterexample). -/
theorem c3_theorem :
    (∀ (cfg : Cfg) (h : Heap) (item fuel r : Nat) (path : List Step)
      (pids : List Nat),
      Heap.WFRefs h → (heapDom h \ pids.toFinset).card < fuel →
      (searchF cfg h item fuel r path pids).isSome = true) ∧
    searchF cfgPlain hSelfRefQ 1 5 0 [] [0] = some [] ∧
    searchF cfgPlain hSibling 2 5 0 [] [0] =
      some [Report.mval [Step.idx 0, Step.idx 0] 2,
            Report.mval [Step.idx 1, Step.idx 0] 2] := by
  refine ⟨?_, by decide, by decide⟩
  intro cfg h item fuel r path pids hwf hcard
  exact searchF_isSome cfg h item hwf fuel r path pids hcard

/-- C3 witness: on the self-referential list, fuel 2 (one more than the
    single unvisited id) already completes the search. -/
theorem c3_witness :
    (searchF cfgPlain hSelfRefQ 1 2 0 [] [0]).isSome = true :=
  c3_theorem.1 cfgPlain hSelfRefQ 1 2 0 [] [0] (by decide) (by decide)

/-- C1 counterexample: `exclude_types` does not filter mapping values.
    Searching `{"a": 5}` for `"a"` with `int` excluded still reports the
    excluded-type node `5` (id 1) in `matched_paths` at `root['a']` — the
    mapping visitor reports and recurses without a type check, and the
    dispatcher checks the search item's type, not the node's. -/
theorem c1_counterexample :
    deepSearchRun cfgNumExcl hDictA 0 2 5 =
      some { matched_paths := some (Bucket.paths [render [Step.key (PyKey.str "a")]]),
             matched_values := none, unprocessed := none } ∧
    typeOfRef hDictA 1 = some PyType.num ∧
    PyType.num ∈ cfgNumExcl.exclude_types ∧
    resolvePath hDictA [Step.key (PyKey.str "a")] 0 = some 1 := by
  decide

/-- C1 (amended): type exclusion is effective exactly where
    `__search_iterable` applies `__skip_this` to the element: an element
    of a sequence, set, or plain tuple whose runtime type is excluded is
    skipped, so no report of that dispatch lies at or below the element's
    position; mapping and object-attribute values are not filtered by
    node type (see the counterexample), and the dispatcher's own check
    tests the search item's type. -/
theorem c1_theorem (cfg : Cfg) (h : Heap) (item fuel r : Nat)
    (path : List Step) (pids : List Nat) (rs : List Report)
    (elems : List Nat) (j x : Nat) (t : PyType)
    (hsf : searchF cfg h item fuel r path pids = some rs)
    (hie : iterElems (List.lookup r h) = some elems)
    (hget : elems.get? j = some x)
    (ht : typeOfRef h x = some t) (hexcl : t ∈ cfg.exclude_types) :
    ∀ rep ∈ rs, ¬ ((path ++ [Step.idx j]) <+: rep.pathOf) := by
  have hex : isExcludedType cfg h x = true := by
    unfold typeOfRef at ht
    obtain ⟨node, hnode, htype⟩ := Option.map_eq_some'.mp ht
    unfold isExcludedType
    rw [hnode]
    subst htype
    exact decide_eq_true hexcl
  exact searchF_excluded_iter_elem cfg h item fuel r path pids rs elems j x
    hsf hie hget hex

/-- List `[5, "q"]` searched for `"q"` (item id 3) with `int` excluded. -/
def hMixed : Heap :=
  [(0, .list [1, 2]), (1, .num 5), (2, .str "q"), (3, .str "q")]

/-- C1 witness: with `int` excluded, the search of `[5, "q"]` reports
    only the string match at `root[1]`, and no report lies at or below
    the excluded element's position `root[0]`. -/
theorem c1_witness :
    ¬ ((([] : List Step) ++ [Step.idx 0]) <+:
        Report.pathOf (Report.mval [Step.idx 1] 2)) :=
  c1_theorem cfgNumExcl hMixed 3 5 0 [] [0] [Report.mval [Step.idx 1] 2]
    [1, 2] 0 1 PyType.num (by decide) rfl rfl rfl (by decide)
    (Report.mval [Step.idx 1] 2) (List.mem_singleton.mpr rfl)

/-- C2 counterexample: an excluded path is not removed from
    `matched_paths`.  With `exclude_paths = {"root['a']"}`, searching
    `{"a": 5}` for `"a"` still reports `root['a']` in `matched_paths`,
    because `__search_dict` reports the path substring match before the
    exclusion check runs (only the recursion into the child is
    skipped). -/
theorem c2_counterexample :
    deepSearchRun cfgPathExcl hDictA 0 2 5 =
      some { matched_paths := some (Bucket.paths [render [Step.key (PyKey.str "a")]]),
             matched_values := none, unprocessed := none } ∧
    render [Step.key (PyKey.str "a")] ∈ cfgPathExcl.exclude_paths := by
  decide

/-- C2 (amended): running a search under `exclude_paths` produces exactly
    the reports of the exclusion-free run filtered by `keepRep`: every
    report strictly below an excluded position disappears, and a report
    at an excluded position disappears unless it is the mapping visitor's
    `matched_paths` report (emitted by the parent before the check);
    reports with no excluded position at or above them are unaffected. -/
theorem c2_theorem (cfg : Cfg) (h : Heap) (item root fuel : Nat)
    (rs : List Report)
    (h0 : searchF (noPaths cfg) h item fuel root [] [root] = some rs) :
    searchF cfg h item fuel root [] [root] =
      some (rs.filter (keepRep cfg.exclude_paths)) ∧
    ∀ rs', searchF cfg h item fuel root [] [root] = some rs' →
      ∀ rep ∈ rs', keepRep cfg.exclude_paths rep = true := by
  have hsim := searchF_sim cfg h item fuel root [] [root] rs rfl h0
  refine ⟨hsim, ?_⟩
  intro rs' hrs' rep hrep
  rw [hsim] at hrs'
  simp only [Option.some.injEq] at hrs'
  subst hrs'
  exact (List.mem_filter.mp hrep).2

/-- C2 witness: on `{"a": 5}` with `root['a']` excluded, the run equals
    the unexcluded run's reports filtered by `keepRep` (here the
    `matched_paths` report survives; nothing lies below it). -/
theorem c2_witness :
    searchF cfgPathExcl hDictA 2 5 0 [] [0] =
      some (List.filter (keepRep cfgPathExcl.exclude_paths)
        [Report.mpath [Step.key (PyKey.str "a")] 1]) :=
  (c2_theorem cfgPathExcl hDictA 2 0 5
    [Report.mpath [Step.key (PyKey.str "a")] 1] (by decide)).1

/-- C4: at `verbose_level < 2` the match buckets are sets of path strings
    holding no values; at `verbose_level >= 2` they are mappings in which
    every recorded path string is paired with the id of the value sitting
    at that path. -/
theorem c4_theorem (cfg : Cfg) (h : Heap) (root item fuel : Nat)
    (out : DeepSearchOut)
    (hrun : deepSearchRun cfg h root item fuel = some out) :
    (cfg.verbose_level < 2 →
      (∀ b, out.matched_paths = some b → ∃ ps, b = Bucket.paths ps) ∧
      (∀ b, out.matched_values = some b → ∃ ps, b = Bucket.paths ps)) ∧
    (2 ≤ cfg.verbose_level → Heap.WFKeys h = true →
      (∀ b, out.matched_paths = some b → ∃ ps, b = Bucket.pathVals ps ∧
        ∀ e ∈ ps, ∃ p, render p = e.1 ∧ resolvePath h p root = some e.2) ∧
      (∀ b, out.matched_values = some b → ∃ ps, b = Bucket.pathVals ps ∧
        ∀ e ∈ ps, ∃ p, render p = e.1 ∧ resolvePath h p root = some e.2)) := by
  unfold deepSearchRun at hrun
  cases hsf : searchF cfg h item fuel root [] [root] with
  | none => rw [hsf] at hrun; cases hrun
  | some rs =>
    rw [hsf] at hrun
    simp only [Option.map_some', Option.some.injEq] at hrun
    subst hrun
    set v := cfg.verbose_level with hvdef
    have hmp : (finalize v rs).matched_paths =
        if bucketEmpty (mpBucket v rs) = true then none else some (mpBucket v rs) := rfl
    have hmv : (finalize v rs).matched_values =
        if bucketEmpty (mvBucket v rs) = true then none else some (mvBucket v rs) := rfl
    have hsome_mp : ∀ b, (finalize v rs).matched_paths = some b → b = mpBucket v rs := by
      intro b hb
      rw [hmp] at hb
      by_cases hemp : bucketEmpty (mpBucket v rs) = true
      · rw [if_pos hemp] at hb; cases hb
      · rw [if_neg hemp] at hb
        simp only [Option.some.injEq] at hb
        exact hb.symm
    have hsome_mv : ∀ b, (finalize v rs).matched_values = some b → b = mvBucket v rs := by
      intro b hb
      rw [hmv] at hb
      by_cases hemp : bucketEmpty (mvBucket v rs) = true
      · rw [if_pos hemp] at hb; cases hb
      · rw [if_neg hemp] at hb
        simp only [Option.some.injEq] at hb
        exact hb.symm
    constructor
    · intro hv
      constructor
      · intro b hb
        obtain ⟨ps, hps⟩ := mpBucket_shape_set hv rs
        exact ⟨ps, by rw [hsome_mp b hb]; exact hps⟩
      · intro b hb
        obtain ⟨ps, hps⟩ := mvBucket_shape_set hv rs
        exact ⟨ps, by rw [hsome_mv b hb]; exact hps⟩
    · intro hv hwk
      have hinit : bucketInit v = Bucket.pathVals [] := by
        unfold bucketInit
        rw [if_pos hv]
      constructor
      · intro b hb
        obtain ⟨ps, hps⟩ := mpBucket_shape_map hv rs
        refine ⟨ps, by rw [hsome_mp b hb]; exact hps, ?_⟩
        intro e he
        have hfold : List.foldl mpStep (Bucket.pathVals []) rs = Bucket.pathVals ps := by
          unfold mpBucket at hps
          rw [hinit] at hps
          exact hps
        rcases mpFold_mem rs [] ps hfold e he with h1 | ⟨p, hpmem, hpr⟩
        · exact absurd h1 (List.not_mem_nil _)
        · exact ⟨p, hpr, searchF_resolves cfg h item root hwk fuel root [] [root]
            rs rfl hsf p e.2 (Or.inl hpmem)⟩
      · intro b hb
        obtain ⟨ps, hps⟩ := mvBucket_shape_map hv rs
        refine ⟨ps, by rw [hsome_mv b hb]; exact hps, ?_⟩
        intro e he
        have hfold : List.foldl mvStep (Bucket.pathVals []) rs = Bucket.pathVals ps := by
          unfold mvBucket at hps
          rw [hinit] at hps
          exact hps
        rcases mvFold_mem rs [] ps hfold e he with h1 | ⟨p, hpmem, hpr⟩
        · exact absurd h1 (List.not_mem_nil _)
        · exact ⟨p, hpr, searchF_resolves cfg h item root hwk fuel root [] [root]
            rs rfl hsf p e.2 (Or.inr hpmem)⟩

/-- The verbose-2 result of the nested docstring example. -/
def outNested : DeepSearchOut :=
  { matched_paths :=
      some (Bucket.pathVals [(render [Step.idx 1, Step.key (PyKey.str "somewhere")], 6)])
    matched_values :=
      some (Bucket.pathVals [(render [Step.idx 0], 1),
                             (render [Step.idx 1, Step.key (PyKey.str "long")], 3)])
    unprocessed := none }

/-- C4 witness: the nested docstring example at verbosity 2 — both
    present buckets are mappings whose every entry pairs a path with the
    value resolved at that path. -/
theorem c4_witness :
    (cfgV2.verbose_level < 2 →
      (∀ b, outNested.matched_paths = some b → ∃ ps, b = Bucket.paths ps) ∧
      (∀ b, outNested.matched_values = some b → ∃ ps, b = Bucket.paths ps)) ∧
    (2 ≤ cfgV2.verbose_level → Heap.WFKeys hNested = true →
      (∀ b, outNested.matched_paths = some b → ∃ ps, b = Bucket.pathVals ps ∧
        ∀ e ∈ ps, ∃ p, render p = e.1 ∧ resolvePath hNested p 0 = some e.2) ∧
      (∀ b, outNested.matched_values = some b → ∃ ps, b = Bucket.pathVals ps ∧
        ∀ e ∈ ps, ∃ p, render p = e.1 ∧ resolvePath hNested p 0 = some e.2)) :=
  c4_theorem cfgV2 hNested 0 7 10 outNested (by decide)

end DDS
